import Mathlib

/-!
LRU cache (package lru_cache): embedding and verified properties

The Go source keeps two coupled structures: a doubly linked list of entries
(container/list) in recency order and a map from key to the list element that
holds the key.  The model keeps both, with list elements addressed by natural
numbers standing for the element pointers.

* keys are uint32 in the source; they are natural numbers here (no arithmetic
  is ever done on a key, only equality tests);
* capacity and ttl are Go int values; they are integers here;
* a method that mutates the structures returns the new cache next to its
  Go results;
* calls are taken one after another, each as a whole; the Remove that an
  expiration goroutine issues is one such call (Put returns the timer it
  starts as a second component);
* the timed model (World) adds a clock in nanoseconds and the list of started
  expirations; a call only starts an expiration and returns, and a started
  expiration fires, as the call Remove(key), when time passes (World.wait)
  with the clock at or past the time at which its timer is due.
-/

namespace lru_cache

/-- The Entry struct of the source: a key and its string value. -/
structure Entry where
  Key : Nat
  Value : String
deriving DecidableEq

/-- The container/list list used by the cache, with the elements allocated
for it.  An element pointer is a natural number; Value is the Value field of
the element at each address, next is the first address not yet allocated,
elems lists the elements currently linked in the list, front to back. -/
structure GoList where
  Value : Nat → Entry
  next : Nat
  elems : List Nat

namespace GoList

/-- list.New(): an empty list, nothing allocated. -/
def New : GoList := { Value := fun _ => { Key := 0, Value := "" }, next := 0, elems := [] }

/-- Len(): the number of linked elements. -/
def Len (l : GoList) : Nat := l.elems.length

/-- Front(): the first element, nil (none) for the empty list. -/
def Front (l : GoList) : Option Nat := l.elems.head?

/-- Back(): the last element, nil (none) for the empty list. -/
def Back (l : GoList) : Option Nat := l.elems.getLast?

/-- Remove(e): unlinks e if e is an element of the list; the Value field of e
is left as it is. -/
def Remove (l : GoList) (e : Nat) : GoList := { l with elems := l.elems.erase e }

/-- MoveToFront(e): no effect when e is not an element of the list or is
already its first element; otherwise e is unlinked and linked at the front. -/
def MoveToFront (l : GoList) (e : Nat) : GoList :=
  if e ∉ l.elems ∨ l.elems.head? = some e then l
  else { l with elems := e :: l.elems.erase e }

/-- PushFront(v): allocates a new element holding v, links it at the front
and returns it. -/
def PushFront (l : GoList) (v : Entry) : GoList × Nat :=
  ({ Value := fun a => if a = l.next then v else l.Value a,
     next := l.next + 1,
     elems := l.next :: l.elems }, l.next)

/-- The assignment e.Value = v on an element pointer. -/
def setValue (l : GoList) (e : Nat) (v : Entry) : GoList :=
  { l with Value := fun a => if a = e then v else l.Value a }

end GoList

/-- The LRUCache struct: capacity, ttl, the recency list and the key index
(map from key to element pointer; none is an absent key). -/
structure LRUCache where
  capacity : Int
  ttl : Int
  queue : GoList
  storage : Nat → Option Nat

/-- The Go statement delete(m, key) on the index. -/
def mapDelete (m : Nat → Option Nat) (key : Nat) : Nat → Option Nat :=
  fun k => if k = key then none else m k

/-- The Go statement m[key] = node on the index. -/
def mapStore (m : Nat → Option Nat) (key : Nat) (node : Nat) : Nat → Option Nat :=
  fun k => if k = key then some node else m k

/-- The empty map made by make(map[uint32]*list.Element). -/
def mapEmpty : Nat → Option Nat := fun _ => none

/-- Wrap-around of a 64-bit signed product, as Go computes on time.Duration. -/
def wrap64 (x : Int) : Int := (x + 2 ^ 63) % 2 ^ 64 - 2 ^ 63

/-- An expiration started by Put: the timer duration in nanoseconds
(time.Second * time.Duration(ttl), a 64-bit signed product) and the key that
the goroutine passes to Remove once the timer has fired. -/
structure Timer where
  duration : Int
  key : Nat
deriving DecidableEq

def NewCache (capacity : Int) : LRUCache :=
  { capacity := capacity, ttl := -1, storage := mapEmpty, queue := GoList.New }

def NewCacheTTL (capacity : Int) (ttl : Int) : LRUCache :=
  { capacity := capacity, ttl := ttl, storage := mapEmpty, queue := GoList.New }

/-- Go integer division truncates toward zero. -/
def NewCacheMemLimit (size : Int) (ttl : Int) : LRUCache :=
  { capacity := Int.tdiv size 300, ttl := ttl, storage := mapEmpty, queue := GoList.New }

/-- RemoveOldest.  Back() is nil only for the empty list, which the guard
excludes; the none branch stands for that unreachable nil dereference. -/
def RemoveOldest (cache : LRUCache) : LRUCache × String × Bool :=
  if cache.queue.Len > 0 then
    match cache.queue.Back with
    | some oldest_node =>
      let entry := cache.queue.Value oldest_node
      let storage := mapDelete cache.storage entry.Key
      let queue := cache.queue.Remove oldest_node
      ({ cache with storage := storage, queue := queue }, entry.Value, true)
    | none => (cache, "", false)
  else
    (cache, "", false)

/-- Remove.  The element is unlinked first and its Value read afterwards, as
in the source. -/
def Remove (cache : LRUCache) (key : Nat) : LRUCache × String × Bool :=
  match cache.storage key with
  | some node =>
    let queue := cache.queue.Remove node
    let entry := queue.Value node
    let storage := mapDelete cache.storage entry.Key
    ({ cache with storage := storage, queue := queue }, entry.Value, true)
  | none => (cache, "", false)

/-- Put.  The second component is the expiration timer the call starts, none
when ttl is the sentinel -1. -/
def Put (cache : LRUCache) (key : Nat) (value : String) : LRUCache × Option Timer :=
  let cache1 :=
    match cache.storage key with
    | some node =>
      let queue := cache.queue.MoveToFront node
      { cache with queue := queue.setValue node { Key := key, Value := value } }
    | none =>
      let cache0 :=
        if (cache.queue.Len : Int) = cache.capacity then (RemoveOldest cache).1 else cache
      let new_entry : Entry := { Key := key, Value := value }
      let pushed := cache0.queue.PushFront new_entry
      { cache0 with queue := pushed.1, storage := mapStore cache0.storage key pushed.2 }
  (cache1,
    if cache.ttl ≠ -1 then some { duration := wrap64 (1000000000 * cache.ttl), key := key }
    else none)

def Get (cache : LRUCache) (key : Nat) : LRUCache × String × Bool :=
  match cache.storage key with
  | some node =>
    let queue := cache.queue.MoveToFront node
    ({ cache with queue := queue }, (queue.Value node).Value, true)
  | none => (cache, "", false)

/-- The loop body of Print over the elements from node on: the entry as
"%d: %s", then ", " unless the element is Back(). -/
def printLoop (cache : LRUCache) : List Nat → String
  | [] => ""
  | node :: rest =>
    let entry := cache.queue.Value node
    toString entry.Key ++ ": " ++ entry.Value ++
      (if some node ≠ cache.queue.Back then ", " else "") ++ printLoop cache rest

/-- Print: the text written to standard output. -/
def Print (cache : LRUCache) : String :=
  "\x7b" ++ printLoop cache cache.queue.elems ++ "\x7d\n"

/-! ## Derived notions used to state the properties -/

/-- The recency list as a sequence of entries, most recently used first. -/
def LRUCache.entries (c : LRUCache) : List Entry := c.queue.elems.map c.queue.Value

/-- The keys of the recency list, most recently used first. -/
def LRUCache.keys (c : LRUCache) : List Nat := c.entries.map Entry.Key

/-- One call of the public interface. -/
inductive Op where
  | put (key : Nat) (value : String)
  | get (key : Nat)
  | remove (key : Nat)
  | removeOldest

/-- The state after one call. -/
def step (c : LRUCache) : Op → LRUCache
  | .put k v => (Put c k v).1
  | .get k => (Get c k).1
  | .remove k => (Remove c k).1
  | .removeOldest => (RemoveOldest c).1

/-- The state after a sequence of calls, first call first. -/
def run (c : LRUCache) (ops : List Op) : LRUCache := ops.foldl step c

/-- The caches the three constructors return. -/
def Constructed (c : LRUCache) : Prop :=
  (∃ capacity, c = NewCache capacity) ∨
  (∃ capacity ttl, c = NewCacheTTL capacity ttl) ∨
  (∃ size ttl, c = NewCacheMemLimit size ttl)

/-- The caches a program can hold: a constructor result followed by any
sequence of calls. -/
def Reachable (c : LRUCache) : Prop :=
  ∃ c0 ops, Constructed c0 ∧ c = run c0 ops

/-- The well-formedness of the list and index pair: every element is linked
once, every linked element has been allocated, and the index maps k to a
exactly when a is a linked element whose entry has key k. -/
structure Inv (c : LRUCache) : Prop where
  nodup : c.queue.elems.Nodup
  fresh : ∀ a ∈ c.queue.elems, a < c.queue.next
  index : ∀ k a, c.storage k = some a ↔ a ∈ c.queue.elems ∧ (c.queue.Value a).Key = k

/-- Unlinking element a and deleting its key from the index: the common
effect of RemoveOldest and Remove. -/
def unlink (c : LRUCache) (a : Nat) : LRUCache :=
  { c with storage := mapDelete c.storage (c.queue.Value a).Key, queue := c.queue.Remove a }

/-- Moving element a to the front: the effect of Get on the list. -/
def touch (c : LRUCache) (a : Nat) : LRUCache :=
  { c with queue := c.queue.MoveToFront a }

/-- Pushing a new entry and recording it in the index: the last two
statements of the new-key branch of Put. -/
def push (c : LRUCache) (k : Nat) (v : String) : LRUCache :=
  { c with queue := (c.queue.PushFront ⟨k, v⟩).1,
           storage := mapStore c.storage k (c.queue.PushFront ⟨k, v⟩).2 }

/-- A cache of capacity 2 holding keys 2 and 1 (full). -/
def fullCache : LRUCache := run (NewCache 2) [.put 1 "a", .put 2 "b"]

/-- A cache of capacity 3 holding keys 2 and 1 (one free slot). -/
def roomyCache : LRUCache := run (NewCache 3) [.put 1 "a", .put 2 "b"]

/-- A cache of capacity 1 holding key 1 (full). -/
def singleCache : LRUCache := run (NewCache 1) [.put 1 "a"]

/-- The cache of the demonstration driver (capacity 3, ttl sentinel -1) after
Put(1,"str1"), Put(2,"str2"), Put(3,"str3"). -/
def demoFilled : LRUCache :=
  run (NewCacheTTL 3 (-1)) [.put 1 "str1", .put 2 "str2", .put 3 "str3"]

/-- The demonstration cache after the further calls Get(3), Get(2), Get(1). -/
def demoRead : LRUCache := run demoFilled [.get 3, .get 2, .get 1]

/-- The demonstration cache after the further call Get(3). -/
def demoReadAgain : LRUCache := run demoRead [.get 3]

/-- The demonstration cache after the further call Put(4,"str4"). -/
def demoOverflow : LRUCache := run demoReadAgain [.put 4 "str4"]

/-- The calls Put(k1,v1), Put(k2,v2), ... for a list of key and value pairs. -/
def putCalls (kvs : List (Nat × String)) : List Op := kvs.map (fun kv => Op.put kv.1 kv.2)

/-- The entry a key and value pair stands for. -/
def toEntry (kv : Nat × String) : Entry := { Key := kv.1, Value := kv.2 }

/-- The results of n successive RemoveOldest calls, first call first, next to
the cache they leave. -/
def drain : Nat → LRUCache → LRUCache × List (String × Bool)
  | 0, c => (c, [])
  | n + 1, c =>
    let r := RemoveOldest c
    let rest := drain n r.1
    (rest.1, r.2 :: rest.2)

/-- The text "key: value" of one entry, the key in decimal. -/
def renderEntry (e : Entry) : String := toString e.Key ++ ": " ++ e.Value

/-- The texts of a list joined with ", " between neighbours. -/
def joinComma : List String → String
  | [] => ""
  | [s] => s
  | s :: t :: rest => s ++ ", " ++ joinComma (t :: rest)

/-- A cache of capacity 0 that has received three distinct keys. -/
def zeroCache : LRUCache := run (NewCache 0) (putCalls [(1, "a"), (2, "b"), (3, "c")])

/-- The body of the expiration goroutine once its timer has fired: the call
Remove(key). -/
def expire (c : LRUCache) (t : Timer) : LRUCache := (Remove c t.key).1

/-- A pending expiration: the time in nanoseconds at which its timer fires
and the key it will remove. -/
structure Pending where
  due : Int
  key : Nat
deriving DecidableEq

/-- The timed model: the cache, the clock in nanoseconds and the expirations
started and not yet fired, in the order in which they were started. -/
structure World where
  cache : LRUCache
  now : Int
  pending : List Pending

/-- The pending expiration a timer started at time now stands for: a timer
with duration d fires at now + d, at once when d is zero or negative. -/
def schedule (now : Int) : Option Timer → List Pending
  | some t => [{ due := now + t.duration, key := t.key }]
  | none => []

/-- Fires the expirations that are due at time now, in the order in which they
were started (each one is the goroutine call Remove(key)), and keeps the
others pending. -/
def fireDue (now : Int) : List Pending → LRUCache → LRUCache × List Pending
  | [], c => (c, [])
  | p :: ps, c =>
    if p.due ≤ now then fireDue now ps (Remove c p.key).1
    else ((fireDue now ps c).1, p :: (fireDue now ps c).2)

/-- The world once every due expiration has fired. -/
def World.settle (w : World) : World :=
  { cache := (fireDue w.now w.pending w.cache).1, now := w.now,
    pending := (fireDue w.now w.pending w.cache).2 }

/-- The expirations a call starts: one for a Put on a cache with a ttl. -/
def started (c : LRUCache) (now : Int) : Op → List Pending
  | .put k v => schedule now (Put c k v).2
  | _ => []

/-- A call made at the current time.  The call changes the cache and, for a
Put on a cache with a ttl, starts an expiration; it fires none: the goroutine
that Put starts runs after Put has returned. -/
def World.call (w : World) (op : Op) : World :=
  { cache := step w.cache op, now := w.now,
    pending := w.pending ++ started w.cache w.now op }

/-- Letting dt nanoseconds pass (dt = 0: the caller only yields): the
expirations that are due by then fire. -/
def World.wait (w : World) (dt : Nat) : World :=
  World.settle { cache := w.cache, now := w.now + dt, pending := w.pending }

/-- What happens in the timed model: a call, or time passing. -/
inductive Event where
  | call (op : Op)
  | wait (dt : Nat)

/-- The world after one event. -/
def World.step (w : World) : Event → World
  | .call op => w.call op
  | .wait dt => w.wait dt

/-- The world after a sequence of events, first event first. -/
def World.run (w : World) (evs : List Event) : World := evs.foldl World.step w

/-- A freshly constructed cache at time 0 with nothing pending. -/
def World.start (c : LRUCache) : World := { cache := c, now := 0, pending := [] }

/-- The key a call names, none for RemoveOldest. -/
def Op.key : Op → Option Nat
  | .put k _ => some k
  | .get k => some k
  | .remove k => some k
  | .removeOldest => none

/-- The call op, made on cache c, neither names key k nor evicts it: k is not
the argument of the call, RemoveOldest does not find k at the back, and a Put
of a new key into a cache at capacity does not find k at the back. -/
def leavesAlone (k : Nat) (c : LRUCache) (op : Op) : Prop :=
  op.key ≠ some k ∧
  match op with
  | .put j _ => ¬ (j ∉ c.keys ∧ (c.entries.length : Int) = c.capacity ∧
      c.keys.getLast? = some k)
  | .removeOldest => c.keys.getLast? ≠ some k
  | _ => True

/-- No call of the event sequence, made from world w on, names or evicts k. -/
def Untouched (k : Nat) : World → List Event → Prop
  | _, [] => True
  | w, .wait dt :: evs => Untouched k (w.wait dt) evs
  | w, .call op :: evs => leavesAlone k w.cache op ∧ Untouched k (w.call op) evs

/-- One second in nanoseconds (time.Second). -/
def second : Int := 1000000000

/-- A cache with ttl 10 on which key 1 was put at time 0 and removed at once,
5 seconds later: key 1 is absent, its expiration is still pending. -/
def staleBefore : World :=
  World.run (World.start (NewCacheTTL 2 10))
    [.call (.put 1 "old"), .call (.remove 1), .wait 5000000000]

/-- The same world after Put(1, "v") at time 5 seconds. -/
def staleWorld : World := staleBefore.call (.put 1 "v")

/-- The state of key k after a Put made at time t0 whose expiration is due at
time due0.  Either the expiration has not fired: the entry (k,v) is in the
cache, its expiration is pending and no other expiration for k is, and the
clock is before due0 unless the expiration was due at the Put already; or it
has fired: the clock is at due0 or later, k is absent and no expiration for k
is pending. -/
def Tracks (k : Nat) (v : String) (t0 due0 : Int) (w : World) : Prop :=
  Inv w.cache ∧
  (((w.now < due0 ∨ due0 ≤ t0) ∧ (⟨k, v⟩ : Entry) ∈ w.cache.entries ∧
      (⟨due0, k⟩ : Pending) ∈ w.pending ∧ ∀ p ∈ w.pending, p.key = k → p.due = due0) ∨
   (due0 ≤ w.now ∧ k ∉ w.cache.keys ∧ ∀ p ∈ w.pending, p.key ≠ k))

/-- A cache with ttl 10 after Put(1, "v1") and then Put(1, "v2"). -/
def overwritten : LRUCache := (Put (Put (NewCacheTTL 2 10) 1 "v1").1 1 "v2").1

/-- A world with ttl 10 at time 0, nothing pending. -/
def ttlWorld : World := World.start (NewCacheTTL 2 10)

/-- A world at time 0, nothing pending, whose ttl of 9223372037 seconds does
not fit a Duration in nanoseconds. -/
def wrapWorld : World := World.start (NewCacheTTL 2 9223372037)

/-! ## Lemmas on the list operations -/

theorem GoList.MoveToFront_elems (l : GoList) (a : Nat) (ha : a ∈ l.elems) :
    (l.MoveToFront a).elems = a :: l.elems.erase a := by
  unfold GoList.MoveToFront
  split
  · next h =>
    rcases h with h | h
    · exact absurd ha h
    · cases hl : l.elems with
      | nil => simp [hl] at ha
      | cons b t =>
        simp [hl] at h
        subst h
        simp
  · rfl

theorem GoList.MoveToFront_Value (l : GoList) (a : Nat) :
    (l.MoveToFront a).Value = l.Value := by
  unfold GoList.MoveToFront
  split <;> rfl

theorem GoList.MoveToFront_next (l : GoList) (a : Nat) :
    (l.MoveToFront a).next = l.next := by
  unfold GoList.MoveToFront
  split <;> rfl

theorem GoList.MoveToFront_length (l : GoList) (a : Nat) :
    (l.MoveToFront a).elems.length = l.elems.length := by
  unfold GoList.MoveToFront
  split
  · rfl
  · next h =>
    have ha : a ∈ l.elems := by
      by_contra hc
      exact h (Or.inl hc)
    have hpos : 0 < l.elems.length := List.length_pos_of_mem ha
    simp [List.length_erase_of_mem ha]
    omega

theorem erase_last_of_nodup (init : List Nat) (a : Nat) (h : (init ++ [a]).Nodup) :
    (init ++ [a]).erase a = init := by
  have hn : a ∉ init := by
    intro hm
    have := List.nodup_append.mp h
    exact this.2.2 hm (by simp)
  rw [List.erase_append_right _ hn]
  simp

/-! ## The index lookup under the invariant -/

theorem Inv.lookup_mem {c : LRUCache} (hI : Inv c) {k a : Nat} (h : c.storage k = some a) :
    a ∈ c.queue.elems := ((hI.index k a).mp h).1

theorem Inv.lookup_key {c : LRUCache} (hI : Inv c) {k a : Nat} (h : c.storage k = some a) :
    (c.queue.Value a).Key = k := ((hI.index k a).mp h).2

theorem Inv.lookup_self {c : LRUCache} (hI : Inv c) {a : Nat} (h : a ∈ c.queue.elems) :
    c.storage (c.queue.Value a).Key = some a := (hI.index _ a).mpr ⟨h, rfl⟩

theorem Inv.key_inj {c : LRUCache} (hI : Inv c) {a b : Nat} (ha : a ∈ c.queue.elems)
    (hb : b ∈ c.queue.elems) (h : (c.queue.Value a).Key = (c.queue.Value b).Key) : a = b := by
  have h1 := hI.lookup_self ha
  have h2 := hI.lookup_self hb
  rw [h] at h1
  rw [h1] at h2
  exact Option.some.inj h2

theorem mem_keys_iff (c : LRUCache) (k : Nat) :
    k ∈ c.keys ↔ ∃ a ∈ c.queue.elems, (c.queue.Value a).Key = k := by
  simp [LRUCache.keys, LRUCache.entries]

theorem Inv.isSome_iff {c : LRUCache} (hI : Inv c) (k : Nat) :
    (∃ a, c.storage k = some a) ↔ k ∈ c.keys := by
  rw [mem_keys_iff]
  constructor
  · rintro ⟨a, h⟩
    exact ⟨a, (hI.index k a).mp h⟩
  · rintro ⟨a, h⟩
    exact ⟨a, (hI.index k a).mpr h⟩

theorem Inv.absent_iff {c : LRUCache} (hI : Inv c) (k : Nat) :
    c.storage k = none ↔ k ∉ c.keys := by
  rw [← hI.isSome_iff k]
  cases c.storage k <;> simp

theorem Inv.keys_nodup {c : LRUCache} (hI : Inv c) : c.keys.Nodup := by
  unfold LRUCache.keys LRUCache.entries
  rw [List.map_map]
  exact List.Nodup.map_on (fun a ha b hb h => hI.key_inj ha hb h) hI.nodup

theorem Inv.lookup_of_mem {c : LRUCache} (hI : Inv c) {k : Nat} {v : String}
    (h : (⟨k, v⟩ : Entry) ∈ c.entries) :
    ∃ a, c.storage k = some a ∧ c.queue.Value a = ⟨k, v⟩ := by
  simp only [LRUCache.entries, List.mem_map] at h
  obtain ⟨a, ha, hv⟩ := h
  refine ⟨a, ?_, hv⟩
  have := hI.lookup_self ha
  rw [hv] at this
  exact this

/-! ## Constructors -/

theorem Inv_empty (c : LRUCache) (hq : c.queue = GoList.New) (hs : c.storage = mapEmpty) :
    Inv c := by
  refine ⟨?_, ?_, ?_⟩
  · simp [hq, GoList.New]
  · simp [hq, GoList.New]
  · intro k a
    simp [hq, hs, GoList.New, mapEmpty]

theorem Constructed.queue {c : LRUCache} (h : Constructed c) : c.queue = GoList.New := by
  rcases h with ⟨_, rfl⟩ | ⟨_, _, rfl⟩ | ⟨_, _, rfl⟩ <;> rfl

theorem Constructed.storage {c : LRUCache} (h : Constructed c) : c.storage = mapEmpty := by
  rcases h with ⟨_, rfl⟩ | ⟨_, _, rfl⟩ | ⟨_, _, rfl⟩ <;> rfl

theorem Constructed.inv_init {c : LRUCache} (h : Constructed c) : Inv c :=
  Inv_empty c h.queue h.storage

/-! ## Unlinking an element -/

theorem Inv_unlink {c : LRUCache} (hI : Inv c) {a : Nat} (ha : a ∈ c.queue.elems) :
    Inv (unlink c a) := by
  refine ⟨?_, ?_, ?_⟩
  · exact hI.nodup.erase a
  · intro b hb
    exact hI.fresh b (List.mem_of_mem_erase hb)
  · intro k b
    show mapDelete c.storage (c.queue.Value a).Key k = some b ↔
      b ∈ c.queue.elems.erase a ∧ (c.queue.Value b).Key = k
    rw [hI.nodup.mem_erase_iff]
    unfold mapDelete
    by_cases hk : k = (c.queue.Value a).Key
    · simp only [hk, if_true]
      constructor
      · intro h
        cases h
      · rintro ⟨⟨hne, hb⟩, hkey⟩
        exact absurd (hI.key_inj hb ha hkey) hne
    · simp only [hk, if_false]
      rw [hI.index k b]
      constructor
      · rintro ⟨hb, hkey⟩
        refine ⟨⟨?_, hb⟩, hkey⟩
        rintro rfl
        exact hk hkey.symm
      · rintro ⟨⟨_, hb⟩, hkey⟩
        exact ⟨hb, hkey⟩

theorem erase_map_eq_filter {c : LRUCache} (hI : Inv c) {a : Nat} (ha : a ∈ c.queue.elems) :
    (c.queue.elems.erase a).map c.queue.Value =
      c.entries.filter (fun e => decide (e.Key ≠ (c.queue.Value a).Key)) := by
  unfold LRUCache.entries
  rw [hI.nodup.erase_eq_filter, List.filter_map]
  congr 1
  apply List.filter_congr
  intro b hb
  by_cases hba : b = a
  · simp [hba]
  · have hkey : (c.queue.Value b).Key ≠ (c.queue.Value a).Key :=
      fun h => hba (hI.key_inj hb ha h)
    simp [hba, hkey]

theorem entries_unlink {c : LRUCache} (hI : Inv c) {a : Nat} (ha : a ∈ c.queue.elems) :
    (unlink c a).entries =
      c.entries.filter (fun e => decide (e.Key ≠ (c.queue.Value a).Key)) := by
  rw [← erase_map_eq_filter hI ha]
  rfl

/-! ## The methods in terms of unlink, touch and push -/

theorem RemoveOldest_nil (c : LRUCache) (h : c.queue.elems = []) :
    RemoveOldest c = (c, "", false) := by
  simp [RemoveOldest, GoList.Len, h]

theorem RemoveOldest_snoc (c : LRUCache) (init : List Nat) (a : Nat)
    (h : c.queue.elems = init ++ [a]) :
    RemoveOldest c = (unlink c a, (c.queue.Value a).Value, true) := by
  simp [RemoveOldest, GoList.Len, GoList.Back, h, unlink]

theorem Remove_some (c : LRUCache) (k a : Nat) (h : c.storage k = some a) :
    Remove c k = (unlink c a, (c.queue.Value a).Value, true) := by
  simp [Remove, h, unlink, GoList.Remove]

theorem Remove_none (c : LRUCache) (k : Nat) (h : c.storage k = none) :
    Remove c k = (c, "", false) := by
  simp [Remove, h]

theorem Get_some (c : LRUCache) (k a : Nat) (h : c.storage k = some a) :
    Get c k = (touch c a, (c.queue.Value a).Value, true) := by
  simp [Get, h, touch, GoList.MoveToFront_Value]

theorem Get_none (c : LRUCache) (k : Nat) (h : c.storage k = none) :
    Get c k = (c, "", false) := by
  simp [Get, h]

theorem Put_some (c : LRUCache) (k a : Nat) (v : String) (h : c.storage k = some a) :
    (Put c k v).1 = { c with queue := (c.queue.MoveToFront a).setValue a ⟨k, v⟩ } := by
  simp [Put, h]

theorem Put_none (c : LRUCache) (k : Nat) (v : String) (h : c.storage k = none) :
    (Put c k v).1 =
      push (if (c.queue.Len : Int) = c.capacity then (RemoveOldest c).1 else c) k v := by
  simp [Put, h, push]

/-! ## Preservation of the invariant -/

theorem Inv_touch {c : LRUCache} (hI : Inv c) {a : Nat} (ha : a ∈ c.queue.elems) :
    Inv (touch c a) := by
  have he : (touch c a).queue.elems = a :: c.queue.elems.erase a :=
    GoList.MoveToFront_elems c.queue a ha
  have hmem : ∀ b, b ∈ (touch c a).queue.elems ↔ b ∈ c.queue.elems := by
    intro b
    rw [he]
    exact (List.perm_cons_erase ha).symm.mem_iff
  refine ⟨?_, ?_, ?_⟩
  · rw [he]
    exact (List.perm_cons_erase ha).nodup_iff.mp hI.nodup
  · intro b hb
    have := hI.fresh b ((hmem b).mp hb)
    simpa [touch, GoList.MoveToFront_next] using this
  · intro k b
    rw [hmem b]
    simpa [touch, GoList.MoveToFront_Value] using hI.index k b

theorem entries_touch {c : LRUCache} (hI : Inv c) {a : Nat} (ha : a ∈ c.queue.elems) :
    (touch c a).entries = c.queue.Value a ::
      c.entries.filter (fun e => decide (e.Key ≠ (c.queue.Value a).Key)) := by
  rw [← erase_map_eq_filter hI ha]
  simp [LRUCache.entries, touch, GoList.MoveToFront_Value, GoList.MoveToFront_elems _ _ ha]

theorem Inv_RemoveOldest {c : LRUCache} (hI : Inv c) : Inv (RemoveOldest c).1 := by
  rcases List.eq_nil_or_concat c.queue.elems with h | ⟨init, a, h⟩
  · rw [RemoveOldest_nil c h]
    exact hI
  · rw [List.concat_eq_append] at h
    rw [RemoveOldest_snoc c init a h]
    exact Inv_unlink hI (by simp [h])

theorem Inv_Remove {c : LRUCache} (hI : Inv c) (k : Nat) : Inv (Remove c k).1 := by
  cases h : c.storage k with
  | none =>
    rw [Remove_none c k h]
    exact hI
  | some a =>
    rw [Remove_some c k a h]
    exact Inv_unlink hI (hI.lookup_mem h)

theorem Inv_Get {c : LRUCache} (hI : Inv c) (k : Nat) : Inv (Get c k).1 := by
  cases h : c.storage k with
  | none =>
    rw [Get_none c k h]
    exact hI
  | some a =>
    rw [Get_some c k a h]
    exact Inv_touch hI (hI.lookup_mem h)

theorem Inv_setValue {c : LRUCache} (hI : Inv c) {k a : Nat} (v : String)
    (h : c.storage k = some a) :
    Inv { c with queue := c.queue.setValue a ⟨k, v⟩ } := by
  have hkey : ∀ b, ((c.queue.setValue a ⟨k, v⟩).Value b).Key = (c.queue.Value b).Key := by
    intro b
    by_cases hb : b = a
    · simp [GoList.setValue, hb, hI.lookup_key h]
    · simp [GoList.setValue, hb]
  refine ⟨hI.nodup, hI.fresh, ?_⟩
  intro k2 b
  show c.storage k2 = some b ↔
    b ∈ c.queue.elems ∧ ((c.queue.setValue a ⟨k, v⟩).Value b).Key = k2
  rw [hkey b]
  exact hI.index k2 b

theorem Inv_push {c : LRUCache} (hI : Inv c) {k : Nat} (v : String) (h : c.storage k = none) :
    Inv (push c k v) := by
  have hn : c.queue.next ∉ c.queue.elems := fun hm => lt_irrefl _ (hI.fresh _ hm)
  refine ⟨?_, ?_, ?_⟩
  · show (c.queue.next :: c.queue.elems).Nodup
    exact List.nodup_cons.mpr ⟨hn, hI.nodup⟩
  · intro b hb
    have hb2 : b = c.queue.next ∨ b ∈ c.queue.elems := by
      simpa [push, GoList.PushFront] using hb
    show b < c.queue.next + 1
    rcases hb2 with rfl | hb2
    · exact Nat.lt_succ_self _
    · exact Nat.lt_succ_of_lt (hI.fresh b hb2)
  · intro k2 b
    show mapStore c.storage k c.queue.next k2 = some b ↔
      b ∈ c.queue.next :: c.queue.elems ∧
        (if b = c.queue.next then (⟨k, v⟩ : Entry) else c.queue.Value b).Key = k2
    unfold mapStore
    by_cases hb : b = c.queue.next
    · subst hb
      by_cases hk : k2 = k
      · simp [hk]
      · simp only [hk, if_false, if_true, List.mem_cons, true_or, true_and]
        constructor
        · intro hs
          exact absurd (hI.lookup_mem hs) hn
        · intro hk2
          exact absurd hk2.symm hk
    · by_cases hk : k2 = k
      · subst hk
        simp only [if_true, hb, if_false, List.mem_cons, false_or]
        constructor
        · intro hs
          exact absurd (Option.some.inj hs).symm hb
        · rintro ⟨hm, hkey⟩
          have := hI.lookup_self hm
          rw [hkey, h] at this
          cases this
      · simp only [hk, if_false, hb, List.mem_cons, false_or]
        exact hI.index k2 b

theorem entries_push {c : LRUCache} (hI : Inv c) (k : Nat) (v : String) :
    (push c k v).entries = ⟨k, v⟩ :: c.entries := by
  have hn : c.queue.next ∉ c.queue.elems := fun hm => lt_irrefl _ (hI.fresh _ hm)
  show List.map (fun a => if a = c.queue.next then (⟨k, v⟩ : Entry) else c.queue.Value a)
    (c.queue.next :: c.queue.elems) = ⟨k, v⟩ :: c.entries
  rw [List.map_cons, if_pos rfl]
  congr 1
  apply List.map_congr_left
  intro b hb
  have : b ≠ c.queue.next := fun hc => hn (hc ▸ hb)
  simp [this]

theorem RemoveOldest_storage_none {c : LRUCache} {k : Nat} (h : c.storage k = none) :
    (RemoveOldest c).1.storage k = none := by
  rcases List.eq_nil_or_concat c.queue.elems with hq | ⟨init, a, hq⟩
  · rw [RemoveOldest_nil c hq]
    exact h
  · rw [List.concat_eq_append] at hq
    rw [RemoveOldest_snoc c init a hq]
    simp [unlink, mapDelete, h]

theorem Inv_Put {c : LRUCache} (hI : Inv c) (k : Nat) (v : String) : Inv (Put c k v).1 := by
  cases h : c.storage k with
  | none =>
    rw [Put_none c k v h]
    split
    · exact Inv_push (Inv_RemoveOldest hI) v (RemoveOldest_storage_none h)
    · exact Inv_push hI v h
  | some a =>
    rw [Put_some c k a v h]
    exact Inv_setValue (Inv_touch hI (hI.lookup_mem h)) v h

theorem Inv_step {c : LRUCache} (hI : Inv c) (op : Op) : Inv (step c op) := by
  cases op with
  | put k v => exact Inv_Put hI k v
  | get k => exact Inv_Get hI k
  | remove k => exact Inv_Remove hI k
  | removeOldest => exact Inv_RemoveOldest hI

theorem Inv_run {c : LRUCache} (hI : Inv c) (ops : List Op) : Inv (run c ops) := by
  induction ops generalizing c with
  | nil => exact hI
  | cons op rest ih => exact ih (Inv_step hI op)

theorem Reachable.inv_reached {c : LRUCache} (h : Reachable c) : Inv c := by
  obtain ⟨c0, ops, h0, rfl⟩ := h
  exact Inv_run h0.inv_init ops

/-! ## Capacity and size -/

theorem entries_length (c : LRUCache) : c.entries.length = c.queue.elems.length := by
  simp [LRUCache.entries]

theorem RemoveOldest_capacity (c : LRUCache) : (RemoveOldest c).1.capacity = c.capacity := by
  rcases List.eq_nil_or_concat c.queue.elems with h | ⟨init, a, h⟩
  · rw [RemoveOldest_nil c h]
  · rw [List.concat_eq_append] at h
    rw [RemoveOldest_snoc c init a h]
    rfl

theorem RemoveOldest_length (c : LRUCache) :
    (RemoveOldest c).1.queue.elems.length = c.queue.elems.length - 1 := by
  rcases List.eq_nil_or_concat c.queue.elems with h | ⟨init, a, h⟩
  · rw [RemoveOldest_nil c h]
    simp [h]
  · rw [List.concat_eq_append] at h
    rw [RemoveOldest_snoc c init a h]
    show (c.queue.elems.erase a).length = c.queue.elems.length - 1
    exact List.length_erase_of_mem (by simp [h])

theorem step_capacity (c : LRUCache) (op : Op) : (step c op).capacity = c.capacity := by
  cases op with
  | put k v =>
    show (Put c k v).1.capacity = c.capacity
    cases h : c.storage k with
    | none =>
      rw [Put_none c k v h]
      split
      · exact RemoveOldest_capacity c
      · rfl
    | some a => rw [Put_some c k a v h]
  | get k =>
    show (Get c k).1.capacity = c.capacity
    cases h : c.storage k with
    | none => rw [Get_none c k h]
    | some a =>
      rw [Get_some c k a h]
      rfl
  | remove k =>
    show (Remove c k).1.capacity = c.capacity
    cases h : c.storage k with
    | none => rw [Remove_none c k h]
    | some a =>
      rw [Remove_some c k a h]
      rfl
  | removeOldest => exact RemoveOldest_capacity c

theorem step_length_le (c : LRUCache) (op : Op) (hcap : 1 ≤ c.capacity)
    (hle : (c.queue.elems.length : Int) ≤ c.capacity) :
    ((step c op).queue.elems.length : Int) ≤ c.capacity := by
  cases op with
  | put k v =>
    show ((Put c k v).1.queue.elems.length : Int) ≤ c.capacity
    cases h : c.storage k with
    | none =>
      rw [Put_none c k v h]
      split
      · next hfull =>
        show (((RemoveOldest c).1.queue.elems.length + 1 : Nat) : Int) ≤ c.capacity
        rw [RemoveOldest_length]
        simp only [GoList.Len] at hfull
        omega
      · next hnot =>
        show ((c.queue.elems.length + 1 : Nat) : Int) ≤ c.capacity
        simp only [GoList.Len] at hnot
        omega
    | some a =>
      rw [Put_some c k a v h]
      show ((c.queue.MoveToFront a).elems.length : Int) ≤ c.capacity
      rw [GoList.MoveToFront_length]
      exact hle
  | get k =>
    show ((Get c k).1.queue.elems.length : Int) ≤ c.capacity
    cases h : c.storage k with
    | none =>
      rw [Get_none c k h]
      exact hle
    | some a =>
      rw [Get_some c k a h]
      show ((c.queue.MoveToFront a).elems.length : Int) ≤ c.capacity
      rw [GoList.MoveToFront_length]
      exact hle
  | remove k =>
    show ((Remove c k).1.queue.elems.length : Int) ≤ c.capacity
    cases h : c.storage k with
    | none =>
      rw [Remove_none c k h]
      exact hle
    | some a =>
      rw [Remove_some c k a h]
      have : (c.queue.elems.erase a).length ≤ c.queue.elems.length :=
        (List.erase_sublist a c.queue.elems).length_le
      show (((c.queue.elems.erase a).length : Nat) : Int) ≤ c.capacity
      omega
  | removeOldest =>
    show ((RemoveOldest c).1.queue.elems.length : Int) ≤ c.capacity
    rw [RemoveOldest_length]
    omega

theorem run_capacity (c : LRUCache) (ops : List Op) : (run c ops).capacity = c.capacity := by
  induction ops generalizing c with
  | nil => rfl
  | cons op rest ih =>
    show (run (step c op) rest).capacity = c.capacity
    rw [ih, step_capacity]

theorem run_length_le (c : LRUCache) (ops : List Op) (hcap : 1 ≤ c.capacity)
    (hle : (c.queue.elems.length : Int) ≤ c.capacity) :
    ((run c ops).queue.elems.length : Int) ≤ c.capacity := by
  induction ops generalizing c with
  | nil => exact hle
  | cons op rest ih =>
    show ((run (step c op) rest).queue.elems.length : Int) ≤ c.capacity
    rw [← step_capacity c op]
    apply ih
    · rw [step_capacity]
      exact hcap
    · rw [step_capacity]
      exact step_length_le c op hcap hle

theorem Reachable.length_le {c : LRUCache} (h : Reachable c) (hcap : 1 ≤ c.capacity) :
    (c.entries.length : Int) ≤ c.capacity := by
  obtain ⟨c0, ops, h0, rfl⟩ := h
  rw [entries_length]
  rw [run_capacity] at hcap ⊢
  apply run_length_le c0 ops hcap
  rw [h0.queue]
  simp only [GoList.New, List.length_nil, Nat.cast_zero]
  omega

theorem reachable_run (capacity : Int) (ops : List Op) :
    Reachable (run (NewCache capacity) ops) :=
  ⟨NewCache capacity, ops, Or.inl ⟨capacity, rfl⟩, rfl⟩

theorem RemoveOldest_entries {c : LRUCache} (hI : Inv c) (init : List Nat) (a : Nat)
    (h : c.queue.elems = init ++ [a]) :
    (RemoveOldest c).1.entries = init.map c.queue.Value := by
  rw [RemoveOldest_snoc c init a h]
  show (c.queue.elems.erase a).map c.queue.Value = init.map c.queue.Value
  have hn := hI.nodup
  rw [h] at hn
  rw [h, erase_last_of_nodup init a hn]

theorem entries_snoc (c : LRUCache) (init : List Nat) (a : Nat)
    (h : c.queue.elems = init ++ [a]) :
    c.entries = init.map c.queue.Value ++ [c.queue.Value a] := by
  simp [LRUCache.entries, h]

theorem entries_Put_none_full {c : LRUCache} (hI : Inv c) {k : Nat} (v : String)
    (hk : k ∉ c.keys) (hfull : (c.entries.length : Int) = c.capacity)
    (init : List Entry) (last : Entry) (h : c.entries = init ++ [last]) :
    (Put c k v).1.entries = ⟨k, v⟩ :: init := by
  have hs : c.storage k = none := (hI.absent_iff k).mpr hk
  rw [entries_length] at hfull
  have hq : (c.queue.Len : Int) = c.capacity := hfull
  rw [Put_none c k v hs, if_pos hq, entries_push (Inv_RemoveOldest hI) k v]
  rcases List.eq_nil_or_concat c.queue.elems with he | ⟨ini, a, he⟩
  · simp [LRUCache.entries, he] at h
  · rw [List.concat_eq_append] at he
    rw [RemoveOldest_entries hI ini a he]
    rw [entries_snoc c ini a he] at h
    rw [(List.append_inj' h rfl).1]

theorem entries_Put_none_room {c : LRUCache} (hI : Inv c) {k : Nat} (v : String)
    (hk : k ∉ c.keys) (hroom : (c.entries.length : Int) ≠ c.capacity) :
    (Put c k v).1.entries = ⟨k, v⟩ :: c.entries := by
  have hs : c.storage k = none := (hI.absent_iff k).mpr hk
  rw [entries_length] at hroom
  have hq : ¬ ((c.queue.Len : Int) = c.capacity) := hroom
  rw [Put_none c k v hs, if_neg hq]
  exact entries_push hI k v

/-! ## Put of a new key (C1) -/

/-- C1: in a reachable cache of capacity at least 1, Put of a key that is not
in the cache gives the recency list (k,v) followed by the old list when the
old list is shorter than the capacity, and (k,v) followed by the old list
without its last entry when the old list has exactly capacity entries; the old
list is never longer than the capacity, so these are the only two cases. -/
theorem Put_new_key (c : LRUCache) (k : Nat) (v : String)
    (hc : Reachable c) (hcap : 1 ≤ c.capacity) (hk : k ∉ c.keys) :
    (c.entries.length : Int) ≤ c.capacity ∧
    ((c.entries.length : Int) < c.capacity → (Put c k v).1.entries = ⟨k, v⟩ :: c.entries) ∧
    ((c.entries.length : Int) = c.capacity →
      ∃ init last, c.entries = init ++ [last] ∧ (Put c k v).1.entries = ⟨k, v⟩ :: init) := by
  have hI := hc.inv_reached
  refine ⟨hc.length_le hcap, ?_, ?_⟩
  · intro hlt
    exact entries_Put_none_room hI v hk (ne_of_lt hlt)
  · intro hfull
    rcases List.eq_nil_or_concat c.entries with h | ⟨init, last, h⟩
    · rw [h] at hfull
      simp at hfull
      omega
    · rw [List.concat_eq_append] at h
      exact ⟨init, last, h, entries_Put_none_full hI v hk hfull init last h⟩

/-- Witness for C1 on the full cache of capacity 2 holding keys 2 and 1. -/
theorem Put_new_key_witness :
    Reachable fullCache ∧ 1 ≤ fullCache.capacity ∧ 3 ∉ fullCache.keys ∧
    ∃ init last, fullCache.entries = init ++ [last] ∧
      (Put fullCache 3 "c").1.entries = ⟨3, "c"⟩ :: init :=
  ⟨reachable_run _ _, by decide, by decide,
    (Put_new_key fullCache 3 "c" (reachable_run _ _) (by decide) (by decide)).2.2 (by decide)⟩

/-! ## The capacity bound (C2) -/

/-- C2: for a cache returned by any of the three constructors with capacity at
least 1, after each call of any finite sequence of Put, Get, Remove and
RemoveOldest calls (that is, after every initial segment of the sequence) the
number of entries held is at most the capacity. -/
theorem size_le_capacity (c0 : LRUCache) (ops : List Op) (n : Nat)
    (h0 : Constructed c0) (hcap : 1 ≤ c0.capacity) :
    ((run c0 (ops.take n)).entries.length : Int) ≤ c0.capacity := by
  have hr : Reachable (run c0 (ops.take n)) := ⟨c0, ops.take n, h0, rfl⟩
  have := hr.length_le (by rw [run_capacity]; exact hcap)
  rw [run_capacity] at this
  exact this

/-- Witness for C2: capacity 2, three insertions of distinct keys. -/
theorem size_le_capacity_witness :
    Constructed (NewCache 2) ∧ (1 : Int) ≤ (NewCache 2).capacity ∧
    ((run (NewCache 2) ([Op.put 1 "a", Op.put 2 "b", Op.put 3 "c"].take 3)).entries.length : Int)
      ≤ (NewCache 2).capacity :=
  ⟨Or.inl ⟨2, rfl⟩, by decide,
    size_le_capacity (NewCache 2) [Op.put 1 "a", Op.put 2 "b", Op.put 3 "c"] 3
      (Or.inl ⟨2, rfl⟩) (by decide)⟩

/-! ## List and index in lockstep (C3) -/

/-- C3: in every state reached from a constructor result by a sequence of Put,
Get, Remove and RemoveOldest calls, the keys of the index are exactly the keys
of the list entries, no key occurs twice in the list, no element is linked
twice, and the element the index stores for key k is a linked element whose
entry has key k. -/
theorem index_list_lockstep (c0 : LRUCache) (ops : List Op) (h0 : Constructed c0) :
    (∀ k, (∃ a, (run c0 ops).storage k = some a) ↔ k ∈ (run c0 ops).keys) ∧
    (run c0 ops).keys.Nodup ∧
    (run c0 ops).queue.elems.Nodup ∧
    (∀ k a, (run c0 ops).storage k = some a →
      a ∈ (run c0 ops).queue.elems ∧ ((run c0 ops).queue.Value a).Key = k) := by
  have hI : Inv (run c0 ops) := Inv_run h0.inv_init ops
  exact ⟨hI.isSome_iff, hI.keys_nodup, hI.nodup, fun k a h => (hI.index k a).mp h⟩

/-- Witness for C3: a cache from NewCacheTTL after a mixed sequence of calls. -/
theorem index_list_lockstep_witness :
    Constructed (NewCacheTTL 2 5) ∧
    (run (NewCacheTTL 2 5) [Op.put 1 "a", Op.put 2 "b", Op.get 1, Op.put 3 "c",
      Op.remove 1, Op.removeOldest]).keys.Nodup :=
  ⟨Or.inr (Or.inl ⟨2, 5, rfl⟩),
    (index_list_lockstep (NewCacheTTL 2 5) [Op.put 1 "a", Op.put 2 "b", Op.get 1, Op.put 3 "c",
      Op.remove 1, Op.removeOldest] (Or.inr (Or.inl ⟨2, 5, rfl⟩))).2.1⟩

/-! ## Operations on a present key (C4, C5, C6) -/

theorem Inv.entries_nodup {c : LRUCache} (hI : Inv c) : c.entries.Nodup :=
  List.Nodup.of_map Entry.Key hI.keys_nodup

theorem Inv.entry_eq_of_key {c : LRUCache} (hI : Inv c) {e1 e2 : Entry}
    (h1 : e1 ∈ c.entries) (h2 : e2 ∈ c.entries) (h : e1.Key = e2.Key) : e1 = e2 :=
  List.inj_on_of_nodup_map hI.keys_nodup h1 h2 h

theorem filter_key_eq_erase {c : LRUCache} (hI : Inv c) {k : Nat} {v : String}
    (h : (⟨k, v⟩ : Entry) ∈ c.entries) :
    c.entries.filter (fun e => decide (e.Key ≠ k)) = c.entries.erase ⟨k, v⟩ := by
  rw [hI.entries_nodup.erase_eq_filter]
  apply List.filter_congr
  intro e he
  by_cases hk : e.Key = k
  · have : e = ⟨k, v⟩ := hI.entry_eq_of_key he h hk
    simp [this]
  · have : e ≠ ⟨k, v⟩ := fun hc => hk (by rw [hc])
    simp [hk, this]

theorem length_filter_key {c : LRUCache} (hI : Inv c) {k : Nat} (h : k ∈ c.keys) :
    (c.entries.filter (fun e => decide (e.Key ≠ k))).length + 1 = c.entries.length := by
  obtain ⟨e, he, hk⟩ := List.mem_map.mp h
  have hmem : (⟨k, e.Value⟩ : Entry) ∈ c.entries := by
    rw [← hk]
    exact he
  rw [filter_key_eq_erase hI hmem, List.length_erase_of_mem hmem]
  have := List.length_pos_of_mem hmem
  omega

theorem mem_keys_of_mem {c : LRUCache} {k : Nat} {v : String}
    (h : (⟨k, v⟩ : Entry) ∈ c.entries) : k ∈ c.keys :=
  List.mem_map.mpr ⟨⟨k, v⟩, h, rfl⟩

theorem entries_Put_some {c : LRUCache} (hI : Inv c) {k a : Nat} (v : String)
    (h : c.storage k = some a) :
    (Put c k v).1.entries = ⟨k, v⟩ :: c.entries.filter (fun e => decide (e.Key ≠ k)) := by
  have ha := hI.lookup_mem h
  have hkey := hI.lookup_key h
  rw [Put_some c k a v h]
  have hf := erase_map_eq_filter hI ha
  rw [hkey] at hf
  rw [← hf]
  show List.map (fun b => if b = a then (⟨k, v⟩ : Entry) else (c.queue.MoveToFront a).Value b)
    (c.queue.MoveToFront a).elems = _
  rw [GoList.MoveToFront_elems _ _ ha, GoList.MoveToFront_Value, List.map_cons, if_pos rfl]
  congr 1
  apply List.map_congr_left
  intro b hb
  have : b ≠ a := ((hI.nodup.mem_erase_iff).mp hb).1
  simp [this]

/-- C4: in a reachable cache, Get of a key k stored with value v returns
(v, true); the new recency list is (k,v) followed by the old list with the
entry of k erased (equivalently, the old list filtered to the keys other than
k, in the old order); the size and the index are unchanged. -/
theorem Get_present (c : LRUCache) (k : Nat) (v : String)
    (hc : Reachable c) (hk : (⟨k, v⟩ : Entry) ∈ c.entries) :
    (Get c k).2 = (v, true) ∧
    (Get c k).1.entries = ⟨k, v⟩ :: c.entries.erase ⟨k, v⟩ ∧
    c.entries.erase ⟨k, v⟩ = c.entries.filter (fun e => decide (e.Key ≠ k)) ∧
    (Get c k).1.entries.length = c.entries.length ∧
    (Get c k).1.storage = c.storage := by
  have hI := hc.inv_reached
  obtain ⟨a, hs, hv⟩ := hI.lookup_of_mem hk
  have ha := hI.lookup_mem hs
  have he : (Get c k).1.entries = ⟨k, v⟩ :: c.entries.erase ⟨k, v⟩ := by
    rw [Get_some c k a hs, ← filter_key_eq_erase hI hk]
    have := entries_touch hI ha
    rw [hv] at this
    exact this
  refine ⟨?_, he, (filter_key_eq_erase hI hk).symm, ?_, ?_⟩
  · rw [Get_some c k a hs, hv]
  · rw [he, List.length_cons, List.length_erase_of_mem hk]
    have := List.length_pos_of_mem hk
    omega
  · rw [Get_some c k a hs]
    rfl

/-- Witness for C4: reading key 1, the least recently used of two. -/
theorem Get_present_witness :
    Reachable fullCache ∧ (⟨1, "a"⟩ : Entry) ∈ fullCache.entries ∧
    (Get fullCache 1).2 = ("a", true) :=
  ⟨reachable_run _ _, by decide,
    (Get_present fullCache 1 "a" (reachable_run _ _) (by decide)).1⟩

/-- C5: in a reachable cache, Put of a key k that is already present (with
whatever old value) gives the recency list (k,v2) followed by the old entries
of the other keys in their old order; the result holds exactly one entry for
k, the size is unchanged (nothing is evicted, at capacity or not), and the
index is unchanged. -/
theorem Put_existing_key (c : LRUCache) (k : Nat) (v2 : String)
    (hc : Reachable c) (hk : k ∈ c.keys) :
    (Put c k v2).1.entries = ⟨k, v2⟩ :: c.entries.filter (fun e => decide (e.Key ≠ k)) ∧
    (Put c k v2).1.entries.filter (fun e => decide (e.Key = k)) = [⟨k, v2⟩] ∧
    (Put c k v2).1.entries.length = c.entries.length ∧
    (Put c k v2).1.storage = c.storage := by
  have hI := hc.inv_reached
  obtain ⟨a, hs⟩ := (hI.isSome_iff k).mpr hk
  have he := entries_Put_some hI v2 hs
  refine ⟨he, ?_, ?_, ?_⟩
  · rw [he, List.filter_cons_of_pos (by simp), List.filter_filter]
    congr 1
    apply List.filter_eq_nil_iff.mpr
    intro e _
    simp
  · rw [he, List.length_cons]
    exact length_filter_key hI hk
  · rw [Put_some c k a v2 hs]

/-- Witness for C5: overwriting key 1 in a full cache. -/
theorem Put_existing_key_witness :
    Reachable fullCache ∧ 1 ∈ fullCache.keys ∧
    (Put fullCache 1 "z").1.entries.length = fullCache.entries.length :=
  ⟨reachable_run _ _, by decide,
    (Put_existing_key fullCache 1 "z" (reachable_run _ _) (by decide)).2.2.1⟩

/-- C6: in a reachable cache, Remove of a key k stored with value v returns
(v, true); afterwards k is in neither the index nor the list, the list is the
old list with the entry of k erased (the other entries with their values, in
their old order), the size has decreased by exactly one, and the index is
unchanged on every other key. -/
theorem Remove_present (c : LRUCache) (k : Nat) (v : String)
    (hc : Reachable c) (hk : (⟨k, v⟩ : Entry) ∈ c.entries) :
    (Remove c k).2 = (v, true) ∧
    (Remove c k).1.entries = c.entries.erase ⟨k, v⟩ ∧
    c.entries.erase ⟨k, v⟩ = c.entries.filter (fun e => decide (e.Key ≠ k)) ∧
    (Remove c k).1.storage k = none ∧
    k ∉ (Remove c k).1.keys ∧
    (Remove c k).1.entries.length + 1 = c.entries.length ∧
    (∀ k2, k2 ≠ k → (Remove c k).1.storage k2 = c.storage k2) := by
  have hI := hc.inv_reached
  obtain ⟨a, hs, hv⟩ := hI.lookup_of_mem hk
  have ha := hI.lookup_mem hs
  have hkey : (c.queue.Value a).Key = k := hI.lookup_key hs
  have he : (Remove c k).1.entries = c.entries.erase ⟨k, v⟩ := by
    rw [Remove_some c k a hs, ← filter_key_eq_erase hI hk]
    have := entries_unlink hI ha
    rw [hkey] at this
    exact this
  have hnone : (Remove c k).1.storage k = none := by
    rw [Remove_some c k a hs]
    simp [unlink, mapDelete, hkey]
  have hI2 : Inv (Remove c k).1 := Inv_Remove hI k
  refine ⟨?_, he, (filter_key_eq_erase hI hk).symm, hnone, (hI2.absent_iff k).mp hnone, ?_, ?_⟩
  · rw [Remove_some c k a hs, hv]
  · rw [he, List.length_erase_of_mem hk]
    have := List.length_pos_of_mem hk
    omega
  · intro k2 hne
    rw [Remove_some c k a hs]
    simp [unlink, mapDelete, hkey, hne]

/-- Witness for C6: removing key 2 from a cache holding keys 2 and 1. -/
theorem Remove_present_witness :
    Reachable fullCache ∧ (⟨2, "b"⟩ : Entry) ∈ fullCache.entries ∧
    (Remove fullCache 2).2 = ("b", true) :=
  ⟨reachable_run _ _, by decide,
    (Remove_present fullCache 2 "b" (reachable_run _ _) (by decide)).1⟩

/-! ## Absent keys and the empty cache (C7, C8, C9) -/

theorem Remove_storage_self {c : LRUCache} (hI : Inv c) (k : Nat) :
    (Remove c k).1.storage k = none := by
  cases h : c.storage k with
  | none =>
    rw [Remove_none c k h]
    exact h
  | some a =>
    rw [Remove_some c k a h]
    simp [unlink, mapDelete, hI.lookup_key h]

/-- C7: in a reachable cache, Remove of an absent key returns ("", false) and
leaves the whole state (list and index) unchanged; hence for every key,
present or not, a second Remove right after the first returns ("", false) and
leaves the state the first one produced. -/
theorem Remove_absent (c : LRUCache) (k : Nat) (hc : Reachable c) :
    (k ∉ c.keys → Remove c k = (c, "", false)) ∧
    Remove (Remove c k).1 k = ((Remove c k).1, "", false) := by
  have hI := hc.inv_reached
  constructor
  · intro hk
    exact Remove_none c k ((hI.absent_iff k).mpr hk)
  · exact Remove_none _ k (Remove_storage_self hI k)

/-- Witness for C7: removing key 2 twice from a cache that holds it. -/
theorem Remove_absent_witness :
    Reachable fullCache ∧
    Remove (Remove fullCache 2).1 2 = ((Remove fullCache 2).1, "", false) :=
  ⟨reachable_run _ _, (Remove_absent fullCache 2 (reachable_run _ _)).2⟩

/-- C8: in a reachable cache whose recency list ends with the entry (k,v),
RemoveOldest returns (v, true), the new list is the old list without that last
entry, k is no longer in the index nor in the list, and the index is unchanged
on every other key; on the empty cache RemoveOldest returns ("", false) and
leaves the state unchanged. -/
theorem RemoveOldest_back (c : LRUCache) (hc : Reachable c) :
    (∀ init k v, c.entries = init ++ [⟨k, v⟩] →
      (RemoveOldest c).2 = (v, true) ∧
      (RemoveOldest c).1.entries = init ∧
      (RemoveOldest c).1.storage k = none ∧
      k ∉ (RemoveOldest c).1.keys ∧
      (∀ k2, k2 ≠ k → (RemoveOldest c).1.storage k2 = c.storage k2)) ∧
    (c.entries = [] → RemoveOldest c = (c, "", false)) := by
  have hI := hc.inv_reached
  constructor
  · intro init k v h
    rcases List.eq_nil_or_concat c.queue.elems with he | ⟨ini, a, he⟩
    · simp [LRUCache.entries, he] at h
    · rw [List.concat_eq_append] at he
      have h2 := entries_snoc c ini a he
      rw [h] at h2
      obtain ⟨h3, h4⟩ := List.append_inj' h2 rfl
      have hv : c.queue.Value a = ⟨k, v⟩ := (List.singleton_inj.mp h4).symm
      have hnone : (RemoveOldest c).1.storage k = none := by
        rw [RemoveOldest_snoc c ini a he]
        simp [unlink, mapDelete, hv]
      refine ⟨?_, ?_, hnone, ((Inv_RemoveOldest hI).absent_iff k).mp hnone, ?_⟩
      · rw [RemoveOldest_snoc c ini a he, hv]
      · rw [RemoveOldest_entries hI ini a he, h3]
      · intro k2 hne
        rw [RemoveOldest_snoc c ini a he]
        simp [unlink, mapDelete, hv, hne]
  · intro h
    apply RemoveOldest_nil
    simpa [LRUCache.entries] using h

/-- Witness for C8: the oldest entry of a cache holding keys 2 and 1. -/
theorem RemoveOldest_back_witness :
    Reachable fullCache ∧ (RemoveOldest fullCache).2 = ("a", true) :=
  ⟨reachable_run _ _,
    ((RemoveOldest_back fullCache (reachable_run _ _)).1 [⟨2, "b"⟩] 1 "a" (by decide)).1⟩

/-- C9: in a reachable cache, Get of an absent key returns ("", false) and
leaves the whole state (list and index) unchanged; and for every key the found
flag Get returns is true exactly when the key is in the cache, whatever the
stored value. -/
theorem Get_absent (c : LRUCache) (k : Nat) (hc : Reachable c) :
    (k ∉ c.keys → Get c k = (c, "", false)) ∧
    ((Get c k).2.2 = true ↔ k ∈ c.keys) := by
  have hI := hc.inv_reached
  constructor
  · intro hk
    exact Get_none c k ((hI.absent_iff k).mpr hk)
  · cases h : c.storage k with
    | none =>
      rw [Get_none c k h]
      have := (hI.absent_iff k).mp h
      simp [this]
    | some a =>
      rw [Get_some c k a h]
      have := (hI.isSome_iff k).mp ⟨a, h⟩
      simp [this]

/-- Witness for C9: key 7 is not in the cache holding keys 2 and 1. -/
theorem Get_absent_witness :
    Reachable fullCache ∧ 7 ∉ fullCache.keys ∧ (Get fullCache 7).2 = ("", false) :=
  ⟨reachable_run _ _, by decide,
    congrArg Prod.snd ((Get_absent fullCache 7 (reachable_run _ _)).1 (by decide))⟩

/-! ## Reading before an overflow (C10) -/

theorem entries_Get_present {c : LRUCache} (hI : Inv c) {k : Nat} {v : String}
    (hk : (⟨k, v⟩ : Entry) ∈ c.entries) :
    (Get c k).1.entries = ⟨k, v⟩ :: c.entries.filter (fun e => decide (e.Key ≠ k)) := by
  obtain ⟨a, hs, hv⟩ := hI.lookup_of_mem hk
  rw [Get_some c k a hs]
  have := entries_touch hI (hI.lookup_mem hs)
  rw [hv] at this
  exact this

theorem Get_storage (c : LRUCache) (k : Nat) : (Get c k).1.storage = c.storage := by
  cases h : c.storage k with
  | none => rw [Get_none c k h]
  | some a =>
    rw [Get_some c k a h]
    rfl

/-- C10 as stated fails at capacity 1: the cache holds only key 1, Get(1)
keeps it the sole (hence also least recently used) entry, and the overflowing
Put(2, "b") evicts key 1 itself. -/
theorem Get_then_Put_evicts_read_key :
    Reachable singleCache ∧ 1 ≤ singleCache.capacity ∧
    (singleCache.entries.length : Int) = singleCache.capacity ∧
    (⟨1, "a"⟩ : Entry) ∈ singleCache.entries ∧ 2 ∉ singleCache.keys ∧
    (Get singleCache 1).2 = ("a", true) ∧
    (Put (Get singleCache 1).1 2 "b").1.entries = [⟨2, "b"⟩] ∧
    1 ∉ (Put (Get singleCache 1).1 2 "b").1.keys ∧
    (Get (Put (Get singleCache 1).1 2 "b").1 1).2 = ("", false) :=
  ⟨reachable_run _ _, by decide, by decide, by decide, by decide, by decide, by decide,
    by decide, by decide⟩

/-- C10, amended to capacity at least 2: in a reachable full cache of capacity
at least 2, Get of a present key k followed by Put of a key j that is not in
the cache evicts the last entry of the list as it stands after the Get; that
entry was in the cache before, its key differs from k (it is not the key that
was read), and k is still present with its value, right behind the new
entry. -/
theorem Get_then_Put_overflow (c : LRUCache) (k : Nat) (vk : String) (j : Nat) (v : String)
    (hc : Reachable c) (hcap : 2 ≤ c.capacity)
    (hfull : (c.entries.length : Int) = c.capacity)
    (hk : (⟨k, vk⟩ : Entry) ∈ c.entries) (hj : j ∉ c.keys) :
    ∃ rest last,
      (Get c k).1.entries = ⟨k, vk⟩ :: (rest ++ [last]) ∧
      (Put (Get c k).1 j v).1.entries = ⟨j, v⟩ :: ⟨k, vk⟩ :: rest ∧
      last ∈ c.entries ∧ last.Key ≠ k ∧ last.Key ∉ (Put (Get c k).1 j v).1.keys ∧
      (⟨k, vk⟩ : Entry) ∈ (Put (Get c k).1 j v).1.entries := by
  have hI := hc.inv_reached
  have hI1 : Inv (Get c k).1 := Inv_Get hI k
  have he := entries_Get_present hI hk
  have hlen := length_filter_key hI (mem_keys_of_mem hk)
  have hj1 : j ∉ (Get c k).1.keys := by
    rw [← hI1.absent_iff, Get_storage, hI.absent_iff]
    exact hj
  have hcap1 : (Get c k).1.capacity = c.capacity := step_capacity c (Op.get k)
  rcases List.eq_nil_or_concat (c.entries.filter (fun e => decide (e.Key ≠ k)))
    with h | ⟨rest, last, h⟩
  · rw [h] at hlen
    simp at hlen
    omega
  · rw [List.concat_eq_append] at h
    rw [h] at he
    have hlast : last ∈ c.entries.filter (fun e => decide (e.Key ≠ k)) := by
      rw [h]
      simp
    have hlast2 := List.mem_filter.mp hlast
    have hne : last.Key ≠ k := by simpa using hlast2.2
    have hfull1 : ((Get c k).1.entries.length : Int) = (Get c k).1.capacity := by
      rw [hcap1, he, ← hfull, ← hlen, h]
      simp
    have hput : (Put (Get c k).1 j v).1.entries = ⟨j, v⟩ :: ⟨k, vk⟩ :: rest :=
      entries_Put_none_full hI1 v hj1 hfull1 (⟨k, vk⟩ :: rest) last (by rw [he]; rfl)
    refine ⟨rest, last, he, hput, hlast2.1, hne, ?_, ?_⟩
    · have hnd : (Get c k).1.keys.Nodup := hI1.keys_nodup
      have hjl : j ≠ last.Key := by
        intro hc2
        apply hj
        rw [hc2]
        exact List.mem_map.mpr ⟨last, hlast2.1, rfl⟩
      unfold LRUCache.keys at hnd ⊢
      rw [he] at hnd
      rw [hput]
      simp only [List.map_cons, List.map_append, List.map_nil, List.nodup_cons,
        List.mem_cons, List.mem_append, List.mem_map, List.mem_singleton] at hnd ⊢
      have hnd2 := List.nodup_append.mp hnd.2
      rintro (h1 | h1 | ⟨e, h1, h2⟩)
      · exact hjl h1.symm
      · exact hne h1
      · exact hnd2.2.2 (List.mem_map.mpr ⟨e, h1, h2⟩) (by simp)
    · rw [hput]
      simp

/-- Witness for the amended C10: capacity 2, keys 2 and 1, read key 1, then
insert key 3. -/
theorem Get_then_Put_overflow_witness :
    Reachable fullCache ∧ 2 ≤ fullCache.capacity ∧
    (fullCache.entries.length : Int) = fullCache.capacity ∧
    (⟨1, "a"⟩ : Entry) ∈ fullCache.entries ∧ 3 ∉ fullCache.keys ∧
    ∃ rest last,
      (Get fullCache 1).1.entries = ⟨1, "a"⟩ :: (rest ++ [last]) ∧
      (Put (Get fullCache 1).1 3 "c").1.entries = ⟨3, "c"⟩ :: ⟨1, "a"⟩ :: rest ∧
      last ∈ fullCache.entries ∧ last.Key ≠ 1 ∧
      last.Key ∉ (Put (Get fullCache 1).1 3 "c").1.keys ∧
      (⟨1, "a"⟩ : Entry) ∈ (Put (Get fullCache 1).1 3 "c").1.entries :=
  ⟨reachable_run _ _, by decide, by decide, by decide, by decide,
    Get_then_Put_overflow fullCache 1 "a" 3 "c" (reachable_run _ _) (by decide) (by decide)
      (by decide) (by decide)⟩

/-! ## The worked scenario (C11) -/

/-- C11: the worked scenario on a cache of capacity 3 without TTL.  After
Put(1,"str1"), Put(2,"str2"), Put(3,"str3") the key order is [3,2,1]; Get(3),
Get(2), Get(1) return ("str3",true), ("str2",true), ("str1",true) and leave the
order [1,2,3]; Get(3) returns ("str3",true) and leaves [3,1,2]; Put(4,"str4")
evicts key 2 and leaves [4,3,1] with their values; Get(2) then returns
("",false).  No call of the scenario starts a timer, and the cache built by
NewCache(3) goes through the same states. -/
theorem demo_scenario :
    demoFilled.keys = [3, 2, 1] ∧
    (Get demoFilled 3).2 = ("str3", true) ∧
    (Get (Get demoFilled 3).1 2).2 = ("str2", true) ∧
    (Get (Get (Get demoFilled 3).1 2).1 1).2 = ("str1", true) ∧
    demoRead.keys = [1, 2, 3] ∧
    (Get demoRead 3).2 = ("str3", true) ∧
    demoReadAgain.keys = [3, 1, 2] ∧
    demoOverflow.keys = [4, 3, 1] ∧
    demoOverflow.entries = [⟨4, "str4"⟩, ⟨3, "str3"⟩, ⟨1, "str1"⟩] ∧
    demoOverflow.storage 2 = none ∧
    (Get demoOverflow 2).2 = ("", false) ∧
    (Put demoReadAgain 4 "str4").2 = none ∧
    (run (NewCache 3) [.put 1 "str1", .put 2 "str2", .put 3 "str3", .get 3, .get 2, .get 1,
      .get 3, .put 4 "str4"]).entries = demoOverflow.entries := by
  refine ⟨?_, ?_, ?_, ?_, ?_, ?_, ?_, ?_, ?_, ?_, ?_, ?_, ?_⟩ <;> decide

/-! ## Construction (C12, C13) -/

/-- C12 as stated fails: NewCache(0), NewCacheTTL(-5, 3) and
NewCacheMemLimit(299, 7) each return a cache, with capacity 0, -5 and 0. -/
theorem constructors_accept_nonpositive_capacity :
    Constructed (NewCache 0) ∧ (NewCache 0).capacity = 0 ∧
    Constructed (NewCacheTTL (-5) 3) ∧ (NewCacheTTL (-5) 3).capacity = -5 ∧
    Constructed (NewCacheMemLimit 299 7) ∧ (NewCacheMemLimit 299 7).capacity = 0 ∧
    ¬ (∀ c, Constructed c → 1 ≤ c.capacity) := by
  refine ⟨Or.inl ⟨0, rfl⟩, rfl, Or.inr (Or.inl ⟨-5, 3, rfl⟩), rfl,
    Or.inr (Or.inr ⟨299, 7, rfl⟩), by decide, ?_⟩
  intro h
  have := h (NewCache 0) (Or.inl ⟨0, rfl⟩)
  exact absurd this (by decide)

/-- C12, amended: construction never fails and never checks the capacity.
For every capacity, positive or not, NewCache and NewCacheTTL return a cache
with exactly that capacity, and for every memory budget NewCacheMemLimit
returns a cache with the derived capacity, each with empty list and index. -/
theorem constructors_total (capacity ttl size : Int) :
    (NewCache capacity).capacity = capacity ∧
    (NewCache capacity).entries = [] ∧ (NewCache capacity).storage = mapEmpty ∧
    (NewCacheTTL capacity ttl).capacity = capacity ∧
    (NewCacheTTL capacity ttl).entries = [] ∧ (NewCacheTTL capacity ttl).storage = mapEmpty ∧
    (NewCacheMemLimit size ttl).capacity = Int.tdiv size 300 ∧
    (NewCacheMemLimit size ttl).entries = [] ∧
    (NewCacheMemLimit size ttl).storage = mapEmpty ∧
    Constructed (NewCache capacity) ∧ Constructed (NewCacheTTL capacity ttl) ∧
    Constructed (NewCacheMemLimit size ttl) :=
  ⟨rfl, rfl, rfl, rfl, rfl, rfl, rfl, rfl, rfl, Or.inl ⟨capacity, rfl⟩,
    Or.inr (Or.inl ⟨capacity, ttl, rfl⟩), Or.inr (Or.inr ⟨size, ttl, rfl⟩)⟩

/-- C13 as stated fails for a negative budget: NewCacheMemLimit(-1, 0) has
capacity 0 (Go division truncates toward zero), while floor(-1 / 300) = -1. -/
theorem NewCacheMemLimit_not_floor :
    (NewCacheMemLimit (-1) 0).capacity = 0 ∧
    ⌊((-1 : Int) : ℚ) / 300⌋ = -1 ∧ Int.fdiv (-1) 300 = -1 ∧
    (NewCacheMemLimit (-1) 0).capacity ≠ ⌊((-1 : Int) : ℚ) / 300⌋ := by
  have hf : ⌊((-1 : Int) : ℚ) / 300⌋ = -1 := by
    rw [Int.floor_eq_iff]
    constructor <;> norm_num
  refine ⟨by decide, hf, by decide, ?_⟩
  rw [hf]
  decide

/-- C13, amended: for every integer memory budget size and every ttl,
NewCacheMemLimit(size, ttl) returns a cache with empty list and index, the
given ttl, and capacity size / 300 rounded toward zero; this is
floor(size / 300) whenever size is not negative. -/
theorem NewCacheMemLimit_capacity (size ttl : Int) :
    (NewCacheMemLimit size ttl).entries = [] ∧
    (NewCacheMemLimit size ttl).storage = mapEmpty ∧
    (NewCacheMemLimit size ttl).ttl = ttl ∧
    (NewCacheMemLimit size ttl).capacity = Int.tdiv size 300 ∧
    (0 ≤ size → (NewCacheMemLimit size ttl).capacity = ⌊(size : ℚ) / 300⌋) := by
  refine ⟨rfl, rfl, rfl, rfl, ?_⟩
  intro h
  show Int.tdiv size 300 = ⌊(size : ℚ) / 300⌋
  have := Rat.floor_intCast_div_natCast size 300
  simp only [Nat.cast_ofNat] at this
  rw [this, Int.tdiv_eq_ediv h (by decide)]

/-- Witness for the amended C13: a budget of 1000 bytes gives capacity 3. -/
theorem NewCacheMemLimit_capacity_witness :
    (0 : Int) ≤ 1000 ∧ (NewCacheMemLimit 1000 60).capacity = ⌊((1000 : Int) : ℚ) / 300⌋ ∧
    (NewCacheMemLimit 1000 60).capacity = 3 :=
  ⟨by decide, (NewCacheMemLimit_capacity 1000 60).2.2.2.2 (by decide), by decide⟩

/-! ## Put followed by Get (C18) -/

theorem entries_Put_head {c : LRUCache} (hI : Inv c) (k : Nat) (v : String) :
    ∃ rest, (Put c k v).1.entries = ⟨k, v⟩ :: rest := by
  cases h : c.storage k with
  | none =>
    rw [Put_none c k v h]
    split
    · exact ⟨_, entries_push (Inv_RemoveOldest hI) k v⟩
    · exact ⟨_, entries_push hI k v⟩
  | some a => exact ⟨_, entries_Put_some hI v h⟩

/-- C18: in every reachable cache, of any capacity (also zero or negative),
Put(k, v) directly followed by Get(k) returns (v, true), whether or not k was
present before and whether or not the Put evicted an entry. -/
theorem Put_then_Get (c : LRUCache) (k : Nat) (v : String) (hc : Reachable c) :
    (Get (Put c k v).1 k).2 = (v, true) := by
  have hI := Inv_Put hc.inv_reached k v
  obtain ⟨rest, he⟩ := entries_Put_head hc.inv_reached k v
  have hmem : (⟨k, v⟩ : Entry) ∈ (Put c k v).1.entries := by
    rw [he]
    exact List.mem_cons_self _ _
  obtain ⟨a, hs, hv⟩ := hI.lookup_of_mem hmem
  rw [Get_some _ k a hs, hv]

/-- Witness for C18: a new key put into a cache of capacity 0 that already
holds three entries. -/
theorem Put_then_Get_witness :
    Reachable zeroCache ∧ zeroCache.capacity = 0 ∧
    (Get (Put zeroCache 9 "z").1 9).2 = ("z", true) :=
  ⟨reachable_run _ _, rfl, Put_then_Get zeroCache 9 "z" (reachable_run _ _)⟩

/-! ## Capacity zero or negative: no eviction (C19) -/

theorem entries_Put_nonpositive {c : LRUCache} (hI : Inv c) (hcap : c.capacity ≤ 0)
    {k : Nat} (v : String) (hk : k ∉ c.keys) :
    (Put c k v).1.entries = ⟨k, v⟩ :: c.entries := by
  by_cases hfull : (c.entries.length : Int) = c.capacity
  · have hlen : c.queue.elems.length = 0 := by
      rw [entries_length] at hfull
      omega
    have hnil : c.queue.elems = [] := List.length_eq_zero.mp hlen
    have hs : c.storage k = none := (hI.absent_iff k).mpr hk
    rw [Put_none c k v hs, RemoveOldest_nil c hnil]
    simp only [ite_self]
    exact entries_push hI k v
  · exact entries_Put_none_room hI v hk hfull

theorem Put_capacity (c : LRUCache) (k : Nat) (v : String) :
    (Put c k v).1.capacity = c.capacity := step_capacity c (Op.put k v)

theorem entries_putCalls {c : LRUCache} (hI : Inv c) (hcap : c.capacity ≤ 0)
    (kvs : List (Nat × String)) (hnd : (kvs.map Prod.fst).Nodup)
    (hdis : ∀ kv ∈ kvs, kv.1 ∉ c.keys) :
    (run c (putCalls kvs)).entries = (kvs.map toEntry).reverse ++ c.entries := by
  induction kvs generalizing c with
  | nil => simp [putCalls, run]
  | cons kv rest ih =>
    have hk : kv.1 ∉ c.keys := hdis kv (List.mem_cons_self _ _)
    have he := entries_Put_nonpositive hI hcap kv.2 hk
    have hnd2 := List.nodup_cons.mp hnd
    have hstep : run c (putCalls (kv :: rest)) = run (Put c kv.1 kv.2).1 (putCalls rest) := rfl
    rw [hstep, ih (Inv_Put hI kv.1 kv.2) (by rw [Put_capacity]; exact hcap) hnd2.2]
    · rw [he]
      simp [toEntry]
    · intro kv2 hkv2
      unfold LRUCache.keys
      rw [he, List.map_cons, List.mem_cons]
      rintro (h | h)
      · apply hnd2.1
        have h2 : kv2.1 = kv.1 := h
        exact List.mem_map.mpr ⟨kv2, hkv2, h2⟩
      · exact hdis kv2 (List.mem_cons_of_mem _ hkv2) h

/-- C19: a cache built with a capacity of zero or less never evicts.  From the
empty cache of any constructor, n Puts with pairwise distinct keys leave all n
entries in the cache, newest first, so the size exceeds the capacity from the
first Put on.  NewCacheMemLimit gives such a capacity (zero) for every budget
from 0 to 299. -/
theorem nonpositive_capacity_never_evicts (c0 : LRUCache) (kvs : List (Nat × String))
    (h0 : Constructed c0) (hcap : c0.capacity ≤ 0) (hnd : (kvs.map Prod.fst).Nodup) :
    (run c0 (putCalls kvs)).entries = (kvs.map toEntry).reverse ∧
    (run c0 (putCalls kvs)).entries.length = kvs.length ∧
    (kvs ≠ [] →
      (run c0 (putCalls kvs)).capacity < ((run c0 (putCalls kvs)).entries.length : Int)) ∧
    (∀ size ttl : Int, 0 ≤ size → size < 300 → (NewCacheMemLimit size ttl).capacity = 0) := by
  have hempty : c0.entries = [] := by
    simp [LRUCache.entries, h0.queue, GoList.New]
  have he : (run c0 (putCalls kvs)).entries = (kvs.map toEntry).reverse := by
    rw [entries_putCalls h0.inv_init hcap kvs hnd, hempty, List.append_nil]
    intro kv _
    simp [LRUCache.keys, hempty]
  refine ⟨he, by rw [he]; simp, ?_, ?_⟩
  · intro hne
    rw [run_capacity, he]
    have : 0 < kvs.length := List.length_pos.mpr hne
    simp only [List.length_reverse, List.length_map]
    omega
  · intro size ttl h1 h2
    show Int.tdiv size 300 = 0
    rw [Int.tdiv_eq_ediv h1 (by decide)]
    omega

/-- Witness for C19: three distinct keys put into NewCache(0) are all kept. -/
theorem nonpositive_capacity_never_evicts_witness :
    Constructed (NewCache 0) ∧ (NewCache 0).capacity ≤ 0 ∧
    ([(1, "a"), (2, "b"), (3, "c")].map Prod.fst).Nodup ∧
    zeroCache.entries = [⟨3, "c"⟩, ⟨2, "b"⟩, ⟨1, "a"⟩] :=
  ⟨Or.inl ⟨0, rfl⟩, by decide, by decide,
    (nonpositive_capacity_never_evicts (NewCache 0) [(1, "a"), (2, "b"), (3, "c")]
      (Or.inl ⟨0, rfl⟩) (by decide) (by decide)).1⟩

/-! ## Draining with RemoveOldest (C20) -/

theorem Inv.storage_none_of_nil {c : LRUCache} (hI : Inv c) (h : c.entries = []) (k : Nat) :
    c.storage k = none := by
  rw [hI.absent_iff, LRUCache.keys, h]
  simp

theorem drain_spec (n : Nat) {c : LRUCache} (hI : Inv c) (hn : c.entries.length = n) :
    (drain n c).2 = c.entries.reverse.map (fun e => (e.Value, true)) ∧
    (drain n c).1.entries = [] ∧ Inv (drain n c).1 := by
  induction n generalizing c with
  | zero =>
    have : c.entries = [] := List.length_eq_zero.mp hn
    simp [drain, this, hI]
  | succ m ih =>
    rcases List.eq_nil_or_concat c.queue.elems with he | ⟨init, a, he⟩
    · rw [entries_length, he] at hn
      simp at hn
    · rw [List.concat_eq_append] at he
      have hr := RemoveOldest_snoc c init a he
      have hent := RemoveOldest_entries hI init a he
      have hsn := entries_snoc c init a he
      have hlen : (RemoveOldest c).1.entries.length = m := by
        rw [hent]
        rw [hsn] at hn
        simpa using hn
      obtain ⟨h1, h2, h3⟩ := ih (Inv_RemoveOldest hI) hlen
      refine ⟨?_, h2, h3⟩
      show (RemoveOldest c).2 :: (drain m (RemoveOldest c).1).2 = _
      rw [h1, hent, hsn, hr]
      simp

/-- C20: in a reachable cache holding n entries e1, ..., en (front to back),
n successive RemoveOldest calls return (value of en, true), ...,
(value of e1, true) in this order, the reverse of the list order; afterwards
the list is empty and the index holds no key, and one more RemoveOldest
returns ("", false) and changes nothing. -/
theorem drain_order (c : LRUCache) (hc : Reachable c) :
    (drain c.entries.length c).2 = c.entries.reverse.map (fun e => (e.Value, true)) ∧
    (drain c.entries.length c).1.entries = [] ∧
    (∀ k, (drain c.entries.length c).1.storage k = none) ∧
    RemoveOldest (drain c.entries.length c).1 = ((drain c.entries.length c).1, "", false) := by
  obtain ⟨h1, h2, h3⟩ := drain_spec c.entries.length hc.inv_reached rfl
  refine ⟨h1, h2, h3.storage_none_of_nil h2, ?_⟩
  apply RemoveOldest_nil
  simpa [LRUCache.entries] using h2

/-- Witness for C20: draining the cache holding keys 2 and 1. -/
theorem drain_order_witness :
    Reachable fullCache ∧
    (drain fullCache.entries.length fullCache).2 = [("a", true), ("b", true)] :=
  ⟨reachable_run _ _, (drain_order fullCache (reachable_run _ _)).1⟩

/-! ## Print (C16) -/

theorem printLoop_eq_joinComma (c : LRUCache) (l : List Nat) (hnd : l.Nodup)
    (hb : l ≠ [] → c.queue.Back = l.getLast?) :
    printLoop c l = joinComma (l.map (fun a => renderEntry (c.queue.Value a))) := by
  induction l with
  | nil => rfl
  | cons x rest ih =>
    cases rest with
    | nil =>
      have hback : c.queue.Back = some x := by simpa using hb (by simp)
      simp [printLoop, joinComma, renderEntry, hback]
    | cons y rs =>
      have hnd2 := List.nodup_cons.mp hnd
      have hback : c.queue.Back = (y :: rs).getLast? := by
        rw [hb (by simp)]
        simp [List.getLast?_cons_cons]
      have hne : some x ≠ c.queue.Back := by
        rw [hback]
        intro h
        exact hnd2.1 (List.mem_of_getLast?_eq_some h.symm)
      have ih2 := ih hnd2.2 (fun _ => hback)
      simp only [printLoop, List.map_cons, joinComma, renderEntry] at ih2 ⊢
      rw [if_pos hne, ih2]

theorem intercalate_go_eq (s acc : String) (l : List String) :
    String.intercalate.go acc s l = acc ++ String.intercalate.go "" s l := by
  induction l generalizing acc with
  | nil => simp [String.intercalate.go]
  | cons a rest ih =>
    rw [String.intercalate.go, ih, String.intercalate.go, ih ("" ++ s ++ a)]
    simp [String.append_assoc]

theorem joinComma_eq_intercalate (l : List String) :
    joinComma l = String.intercalate ", " l := by
  induction l with
  | nil => rfl
  | cons a rest ih =>
    cases rest with
    | nil => simp [joinComma, String.intercalate, String.intercalate.go]
    | cons b rs =>
      rw [joinComma, ih]
      simp only [String.intercalate, String.intercalate.go]
      rw [intercalate_go_eq ", " (a ++ ", " ++ b), intercalate_go_eq ", " b]
      simp [String.append_assoc]

theorem Print_eq_joinComma {c : LRUCache} (hI : Inv c) :
    Print c = "\x7b" ++ joinComma (c.entries.map renderEntry) ++ "\x7d\n" := by
  unfold Print
  rw [printLoop_eq_joinComma c c.queue.elems hI.nodup (fun _ => rfl)]
  simp [LRUCache.entries, Function.comp_def]

/-- C16: Print only reads the cache (Front, Next, Back and the element values;
its embedding is a function of the cache that returns the text and no new
state, so list and index are as before).  In a reachable cache the text is an
opening brace, the current entries in list order (most recently used first),
each once and written as the key in decimal, a colon, a space and the value,
with ", " between neighbours, then a closing brace and a newline. -/
theorem Print_text (c : LRUCache) (hc : Reachable c) :
    Print c = "\x7b" ++ String.intercalate ", " (c.entries.map renderEntry) ++ "\x7d\n" ∧
    Print c = "\x7b" ++ joinComma (c.entries.map renderEntry) ++ "\x7d\n" ∧
    (∀ e, renderEntry e = toString e.Key ++ ": " ++ e.Value) := by
  have h := Print_eq_joinComma hc.inv_reached
  refine ⟨?_, h, fun _ => rfl⟩
  rw [h, joinComma_eq_intercalate]

/-- Witness for C16: the first Print of the demonstration driver. -/
theorem Print_text_witness :
    Reachable demoFilled ∧ Print demoFilled = "\x7b3: str3, 2: str2, 1: str1\x7d\n" :=
  ⟨⟨NewCacheTTL 3 (-1), _, Or.inr (Or.inl ⟨3, -1, rfl⟩), rfl⟩,
    ((Print_text demoFilled ⟨NewCacheTTL 3 (-1), _, Or.inr (Or.inl ⟨3, -1, rfl⟩), rfl⟩).1).trans
      (by decide)⟩

/-! ## What each call does to the entries of the other keys -/

theorem entries_Remove {c : LRUCache} (hI : Inv c) (k : Nat) :
    (Remove c k).1.entries = c.entries.filter (fun e => decide (e.Key ≠ k)) := by
  cases h : c.storage k with
  | none =>
    rw [Remove_none c k h]
    symm
    apply List.filter_eq_self.mpr
    intro e he
    have hk := (hI.absent_iff k).mp h
    have : e.Key ≠ k := fun hc => hk (hc ▸ List.mem_map.mpr ⟨e, he, rfl⟩)
    simpa using this
  | some a =>
    rw [Remove_some c k a h]
    have := entries_unlink hI (hI.lookup_mem h)
    rw [hI.lookup_key h] at this
    exact this

theorem RemoveOldest_entries_dropLast {c : LRUCache} (hI : Inv c) :
    (RemoveOldest c).1.entries = c.entries.dropLast := by
  rcases List.eq_nil_or_concat c.queue.elems with he | ⟨init, a, he⟩
  · rw [RemoveOldest_nil c he]
    simp [LRUCache.entries, he]
  · rw [List.concat_eq_append] at he
    rw [RemoveOldest_entries hI init a he, entries_snoc c init a he]
    simp

theorem entries_Put_absent {c : LRUCache} (hI : Inv c) {j : Nat} (v : String)
    (hj : j ∉ c.keys) :
    (Put c j v).1.entries = ⟨j, v⟩ ::
      (if (c.entries.length : Int) = c.capacity then c.entries.dropLast else c.entries) := by
  have hs : c.storage j = none := (hI.absent_iff j).mpr hj
  rw [Put_none c j v hs]
  have hq : ((c.queue.Len : Int) = c.capacity) ↔ ((c.entries.length : Int) = c.capacity) := by
    rw [entries_length]
    rfl
  by_cases hfull : (c.entries.length : Int) = c.capacity
  · rw [if_pos (hq.mpr hfull), if_pos hfull, entries_push (Inv_RemoveOldest hI),
      RemoveOldest_entries_dropLast hI]
  · rw [if_neg (fun h => hfull (hq.mp h)), if_neg hfull, entries_push hI]

theorem mem_entries_Get {c : LRUCache} (hI : Inv c) (j : Nat) (e : Entry) :
    e ∈ (Get c j).1.entries ↔ e ∈ c.entries := by
  cases h : c.storage j with
  | none => rw [Get_none c j h]
  | some a =>
    have ha := hI.lookup_mem h
    rw [Get_some c j a h, entries_touch hI ha, List.mem_cons, List.mem_filter]
    have hmem : c.queue.Value a ∈ c.entries := List.mem_map.mpr ⟨a, ha, rfl⟩
    constructor
    · rintro (h1 | h1)
      · rw [h1]
        exact hmem
      · exact h1.1
    · intro he
      by_cases hk : e.Key = (c.queue.Value a).Key
      · exact Or.inl (hI.entry_eq_of_key he hmem hk)
      · exact Or.inr ⟨he, by simpa using hk⟩

theorem mem_dropLast_of_ne_last {l : List Entry} {e : Entry} (he : e ∈ l)
    (hl : (l.map Entry.Key).getLast? ≠ some e.Key) : e ∈ l.dropLast := by
  rcases List.eq_nil_or_concat l with h | ⟨init, last, h⟩
  · rw [h] at he
    cases he
  · rw [List.concat_eq_append] at h
    subst h
    have hl2 : (List.map Entry.Key (init ++ [last])).getLast? = some last.Key := by simp
    rw [hl2] at hl
    rw [List.dropLast_concat]
    rcases List.mem_append.mp he with h1 | h1
    · exact h1
    · rw [List.mem_singleton] at h1
      exact absurd (by rw [h1]) hl

theorem mem_step_of_leavesAlone {c : LRUCache} (hI : Inv c) {k : Nat} {op : Op}
    (hop : leavesAlone k c op) {e : Entry} (he : e ∈ c.entries) (hk : e.Key = k) :
    e ∈ (step c op).entries := by
  obtain ⟨hkey, hev⟩ := hop
  have hlast : c.keys.getLast? ≠ some k → e ∈ c.entries.dropLast := by
    intro h
    apply mem_dropLast_of_ne_last he
    rw [hk]
    exact h
  cases op with
  | put j v =>
    have hjk : j ≠ k := fun h => hkey (by rw [h]; rfl)
    show e ∈ (Put c j v).1.entries
    by_cases hj : j ∈ c.keys
    · obtain ⟨a, hs⟩ := (hI.isSome_iff j).mpr hj
      rw [entries_Put_some hI v hs]
      refine List.mem_cons_of_mem _ (List.mem_filter.mpr ⟨he, ?_⟩)
      have : e.Key ≠ j := by
        rw [hk]
        exact fun h => hjk h.symm
      simpa using this
    · rw [entries_Put_absent hI v hj]
      apply List.mem_cons_of_mem
      by_cases hfull : (c.entries.length : Int) = c.capacity
      · rw [if_pos hfull]
        exact hlast (fun h => hev ⟨hj, hfull, h⟩)
      · rw [if_neg hfull]
        exact he
  | get j => exact (mem_entries_Get hI j e).mpr he
  | remove j =>
    have hjk : j ≠ k := fun h => hkey (by rw [h]; rfl)
    show e ∈ (Remove c j).1.entries
    rw [entries_Remove hI j]
    refine List.mem_filter.mpr ⟨he, ?_⟩
    have : e.Key ≠ j := by
      rw [hk]
      exact fun h => hjk h.symm
    simpa using this
  | removeOldest =>
    show e ∈ (RemoveOldest c).1.entries
    rw [RemoveOldest_entries_dropLast hI]
    exact hlast hev

theorem not_mem_keys_step {c : LRUCache} (hI : Inv c) {k : Nat} (hk : k ∉ c.keys)
    {op : Op} (hop : op.key ≠ some k) : k ∉ (step c op).keys := by
  intro hmem
  obtain ⟨e, he, hek⟩ := List.mem_map.mp hmem
  have hold : e ∈ c.entries → False := fun h => hk (hek ▸ List.mem_map.mpr ⟨e, h, rfl⟩)
  cases op with
  | put j v =>
    have hjk : j ≠ k := fun h => hop (by rw [h]; rfl)
    have he2 : e ∈ (Put c j v).1.entries := he
    by_cases hj : j ∈ c.keys
    · obtain ⟨a, hs⟩ := (hI.isSome_iff j).mpr hj
      rw [entries_Put_some hI v hs, List.mem_cons] at he2
      rcases he2 with h | h
      · exact hjk (by rw [← hek, h])
      · exact hold (List.mem_filter.mp h).1
    · rw [entries_Put_absent hI v hj, List.mem_cons] at he2
      rcases he2 with h | h
      · exact hjk (by rw [← hek, h])
      · split at h
        · exact hold (List.mem_of_mem_dropLast h)
        · exact hold h
  | get j => exact hold ((mem_entries_Get hI j e).mp he)
  | remove j =>
    have he2 : e ∈ (Remove c j).1.entries := he
    rw [entries_Remove hI j] at he2
    exact hold (List.mem_filter.mp he2).1
  | removeOldest =>
    have he2 : e ∈ (RemoveOldest c).1.entries := he
    rw [RemoveOldest_entries_dropLast hI] at he2
    exact hold (List.mem_of_mem_dropLast he2)

theorem step_ttl (c : LRUCache) (op : Op) : (step c op).ttl = c.ttl := by
  cases op with
  | put k v =>
    show (Put c k v).1.ttl = c.ttl
    cases h : c.storage k with
    | none =>
      rw [Put_none c k v h]
      split
      · rcases List.eq_nil_or_concat c.queue.elems with he | ⟨init, a, he⟩
        · rw [RemoveOldest_nil c he]
          rfl
        · rw [List.concat_eq_append] at he
          rw [RemoveOldest_snoc c init a he]
          rfl
      · rfl
    | some a => rw [Put_some c k a v h]
  | get k =>
    show (Get c k).1.ttl = c.ttl
    cases h : c.storage k with
    | none => rw [Get_none c k h]
    | some a =>
      rw [Get_some c k a h]
      rfl
  | remove k =>
    show (Remove c k).1.ttl = c.ttl
    cases h : c.storage k with
    | none => rw [Remove_none c k h]
    | some a =>
      rw [Remove_some c k a h]
      rfl
  | removeOldest =>
    show (RemoveOldest c).1.ttl = c.ttl
    rcases List.eq_nil_or_concat c.queue.elems with he | ⟨init, a, he⟩
    · rw [RemoveOldest_nil c he]
    · rw [List.concat_eq_append] at he
      rw [RemoveOldest_snoc c init a he]
      rfl


/-! ## Expirations in the timed model -/

theorem wrap64_eq (x : Int) (h1 : -(2 ^ 63) ≤ x) (h2 : x < 2 ^ 63) : wrap64 x = x := by
  unfold wrap64
  omega

theorem Put_timer (c : LRUCache) (k : Nat) (v : String) (h : c.ttl ≠ -1) :
    (Put c k v).2 = some ⟨wrap64 (1000000000 * c.ttl), k⟩ := by
  simp [Put, h]

theorem Put_timer_none (c : LRUCache) (k : Nat) (v : String) (h : c.ttl = -1) :
    (Put c k v).2 = none := by
  simp [Put, h]

theorem started_key {c : LRUCache} {now : Int} {op : Op} {p : Pending}
    (h : p ∈ started c now op) : op.key = some p.key := by
  cases op with
  | put k v =>
    simp only [started] at h
    by_cases httl : c.ttl = -1
    · rw [Put_timer_none c k v httl] at h
      cases h
    · rw [Put_timer c k v httl] at h
      simp only [schedule, List.mem_singleton] at h
      rw [h]
      rfl
  | get k => cases h
  | remove k => cases h
  | removeOldest => cases h

theorem fireDue_inv (now : Int) (ps : List Pending) {c : LRUCache} (hI : Inv c) :
    Inv (fireDue now ps c).1 := by
  induction ps generalizing c with
  | nil => exact hI
  | cons p rest ih =>
    unfold fireDue
    split
    · exact ih (Inv_Remove hI p.key)
    · exact ih hI

theorem fireDue_pending (now : Int) (ps : List Pending) (c : LRUCache) :
    (fireDue now ps c).2 = ps.filter (fun p => decide (now < p.due)) := by
  induction ps generalizing c with
  | nil => rfl
  | cons p rest ih =>
    unfold fireDue
    split
    · next h =>
      rw [ih, List.filter_cons_of_neg (by simpa using h)]
    · next h =>
      rw [List.filter_cons_of_pos (by simpa using h)]
      show p :: (fireDue now rest c).2 = _
      rw [ih]

theorem fireDue_mem (now : Int) (ps : List Pending) {c : LRUCache} (hI : Inv c)
    {e : Entry} (he : e ∈ c.entries) (hp : ∀ p ∈ ps, p.key = e.Key → now < p.due) :
    e ∈ (fireDue now ps c).1.entries := by
  induction ps generalizing c with
  | nil => exact he
  | cons p rest ih =>
    have hrest : ∀ q ∈ rest, q.key = e.Key → now < q.due :=
      fun q hq => hp q (List.mem_cons_of_mem _ hq)
    unfold fireDue
    split
    · next h =>
      have hne : e.Key ≠ p.key := by
        intro hc
        have := hp p (List.mem_cons_self _ _) hc.symm
        omega
      apply ih (Inv_Remove hI p.key) _ hrest
      rw [entries_Remove hI]
      exact List.mem_filter.mpr ⟨he, by simpa using hne⟩
    · exact ih hI he hrest

theorem not_mem_keys_Remove {c : LRUCache} (hI : Inv c) {k : Nat} (j : Nat)
    (hk : k ∉ c.keys) : k ∉ (Remove c j).1.keys := by
  intro hmem
  obtain ⟨e, he, hek⟩ := List.mem_map.mp hmem
  rw [entries_Remove hI] at he
  exact hk (hek ▸ List.mem_map.mpr ⟨e, (List.mem_filter.mp he).1, rfl⟩)

theorem fireDue_absent (now : Int) (ps : List Pending) {c : LRUCache} (hI : Inv c)
    {k : Nat} (hk : k ∉ c.keys) : k ∉ (fireDue now ps c).1.keys := by
  induction ps generalizing c with
  | nil => exact hk
  | cons p rest ih =>
    unfold fireDue
    split
    · exact ih (Inv_Remove hI p.key) (not_mem_keys_Remove hI p.key hk)
    · exact ih hI hk

theorem fireDue_expire (now : Int) (ps : List Pending) {c : LRUCache} (hI : Inv c)
    {p0 : Pending} (hp : p0 ∈ ps) (hdue : p0.due ≤ now) :
    p0.key ∉ (fireDue now ps c).1.keys := by
  induction ps generalizing c with
  | nil => cases hp
  | cons p rest ih =>
    unfold fireDue
    rcases List.mem_cons.mp hp with h | h
    · subst h
      rw [if_pos hdue]
      apply fireDue_absent now rest (Inv_Remove hI p0.key)
      exact ((Inv_Remove hI p0.key).absent_iff p0.key).mp (Remove_storage_self hI p0.key)
    · split
      · exact ih (Inv_Remove hI p.key) h
      · exact ih hI h

theorem settle_tracks {c : LRUCache} (hI : Inv c) (now : Int) (ps : List Pending)
    {k : Nat} {v : String} (t0 : Int) {due0 : Int}
    (h : ((⟨k, v⟩ : Entry) ∈ c.entries ∧ (⟨due0, k⟩ : Pending) ∈ ps ∧
        ∀ p ∈ ps, p.key = k → p.due = due0) ∨
      (due0 ≤ now ∧ k ∉ c.keys ∧ ∀ p ∈ ps, p.key ≠ k)) :
    Tracks k v t0 due0 (World.settle { cache := c, now := now, pending := ps }) := by
  refine ⟨fireDue_inv now ps hI, ?_⟩
  show ((now < due0 ∨ due0 ≤ t0) ∧ (⟨k, v⟩ : Entry) ∈ (fireDue now ps c).1.entries ∧
      (⟨due0, k⟩ : Pending) ∈ (fireDue now ps c).2 ∧
      ∀ p ∈ (fireDue now ps c).2, p.key = k → p.due = due0) ∨
    (due0 ≤ now ∧ k ∉ (fireDue now ps c).1.keys ∧ ∀ p ∈ (fireDue now ps c).2, p.key ≠ k)
  rw [fireDue_pending]
  rcases h with ⟨he, hp, hall⟩ | ⟨hdue, hk, hall⟩
  · by_cases hlt : now < due0
    · refine Or.inl ⟨Or.inl hlt, ?_, ?_, ?_⟩
      · apply fireDue_mem now ps hI he
        intro p hpm hkey
        rw [hall p hpm hkey]
        exact hlt
      · exact List.mem_filter.mpr ⟨hp, by simpa using hlt⟩
      · intro p hpm hkey
        exact hall p (List.mem_filter.mp hpm).1 hkey
    · have hdue : due0 ≤ now := not_lt.mp hlt
      refine Or.inr ⟨hdue, fireDue_expire now ps hI hp hdue, ?_⟩
      intro p hpm hkey
      have h1 := List.mem_filter.mp hpm
      have h2 : now < p.due := by simpa using h1.2
      rw [hall p h1.1 hkey] at h2
      omega
  · refine Or.inr ⟨hdue, fireDue_absent now ps hI hk, ?_⟩
    intro p hpm
    exact hall p (List.mem_filter.mp hpm).1

theorem Tracks_wait {k : Nat} {v : String} {t0 due0 : Int} {w : World}
    (h : Tracks k v t0 due0 w) (dt : Nat) : Tracks k v t0 due0 (w.wait dt) := by
  obtain ⟨hI, h2⟩ := h
  apply settle_tracks hI
  rcases h2 with ⟨_, he, hp, hall⟩ | ⟨hdue, hk, hall⟩
  · exact Or.inl ⟨he, hp, hall⟩
  · exact Or.inr ⟨by omega, hk, hall⟩

theorem wait_expires {k : Nat} {v : String} {t0 due0 : Int} {w : World}
    (h : Tracks k v t0 due0 w) (dt : Nat) (hdue : due0 ≤ w.now + dt) :
    (Get (w.wait dt).cache k).2 = ("", false) := by
  obtain ⟨hI, h2⟩ := h
  have hI2 : Inv (w.wait dt).cache := fireDue_inv _ _ hI
  have habs : k ∉ (w.wait dt).cache.keys := by
    rcases h2 with ⟨_, _, hp, _⟩ | ⟨_, hk, _⟩
    · exact fireDue_expire (w.now + dt) w.pending hI hp hdue
    · exact fireDue_absent (w.now + dt) w.pending hI hk
  rw [Get_none _ k ((hI2.absent_iff k).mpr habs)]

theorem Tracks_call {k : Nat} {v : String} {t0 due0 : Int} {w : World}
    (h : Tracks k v t0 due0 w) {op : Op} (hop : leavesAlone k w.cache op) :
    Tracks k v t0 due0 (w.call op) := by
  obtain ⟨hI, h2⟩ := h
  have hnew : ∀ p ∈ started w.cache w.now op, p.key ≠ k := by
    intro p hp hkey
    apply hop.1
    rw [started_key hp, hkey]
  refine ⟨Inv_step hI op, ?_⟩
  show ((w.now < due0 ∨ due0 ≤ t0) ∧ (⟨k, v⟩ : Entry) ∈ (step w.cache op).entries ∧
      (⟨due0, k⟩ : Pending) ∈ w.pending ++ started w.cache w.now op ∧
      ∀ p ∈ w.pending ++ started w.cache w.now op, p.key = k → p.due = due0) ∨
    (due0 ≤ w.now ∧ k ∉ (step w.cache op).keys ∧
      ∀ p ∈ w.pending ++ started w.cache w.now op, p.key ≠ k)
  rcases h2 with ⟨ht, he, hp, hall⟩ | ⟨hdue, hk, hall⟩
  · refine Or.inl ⟨ht, mem_step_of_leavesAlone hI hop he rfl, List.mem_append_left _ hp, ?_⟩
    intro p hpm hkey
    rcases List.mem_append.mp hpm with h1 | h1
    · exact hall p h1 hkey
    · exact absurd hkey (hnew p h1)
  · refine Or.inr ⟨hdue, not_mem_keys_step hI hk hop.1, ?_⟩
    intro p hpm
    rcases List.mem_append.mp hpm with h1 | h1
    · exact hall p h1
    · exact hnew p h1

theorem Tracks_run {k : Nat} {v : String} {t0 due0 : Int} (evs : List Event) {w : World}
    (h : Tracks k v t0 due0 w) (hun : Untouched k w evs) :
    Tracks k v t0 due0 (World.run w evs) := by
  induction evs generalizing w with
  | nil => exact h
  | cons ev rest ih =>
    cases ev with
    | call op => exact ih (Tracks_call h hun.1) hun.2
    | wait dt => exact ih (Tracks_wait h dt) hun

theorem Tracks_Get {k : Nat} {v : String} {t0 due0 : Int} {w : World}
    (h : Tracks k v t0 due0 w) :
    (w.now < due0 → (Get w.cache k).2 = (v, true)) ∧
    ((⟨due0, k⟩ : Pending) ∈ w.pending → (Get w.cache k).2 = (v, true)) ∧
    ((⟨due0, k⟩ : Pending) ∉ w.pending → (Get w.cache k).2 = ("", false)) ∧
    (t0 < due0 → due0 ≤ w.now → (Get w.cache k).2 = ("", false)) := by
  obtain ⟨hI, h2⟩ := h
  rcases h2 with ⟨ht, he, hp, _⟩ | ⟨hdue, hk, hall⟩
  · have hget : (Get w.cache k).2 = (v, true) := by
      obtain ⟨a, hs, hv⟩ := hI.lookup_of_mem he
      rw [Get_some _ k a hs, hv]
    refine ⟨fun _ => hget, fun _ => hget, fun hn => absurd hp hn, ?_⟩
    intro h3 h4
    omega
  · have hget : (Get w.cache k).2 = ("", false) := by
      rw [Get_none _ k ((hI.absent_iff k).mpr hk)]
    refine ⟨?_, ?_, fun _ => hget, fun _ _ => hget⟩
    · intro h3
      omega
    · intro hp
      exact absurd rfl (hall _ hp)

theorem Tracks_Put {w : World} (k : Nat) (v : String) (hI : Inv w.cache)
    (hT : 0 ≤ w.cache.ttl) (hfit : second * w.cache.ttl < 2 ^ 63)
    (hfresh : ∀ p ∈ w.pending, p.key ≠ k) :
    Tracks k v w.now (w.now + second * w.cache.ttl) (w.call (.put k v)) := by
  have httl : w.cache.ttl ≠ -1 := by omega
  have hw : wrap64 (1000000000 * w.cache.ttl) = second * w.cache.ttl := by
    unfold second at hfit ⊢
    apply wrap64_eq <;> omega
  have hst : started w.cache w.now (.put k v) = [⟨w.now + second * w.cache.ttl, k⟩] := by
    simp only [started]
    rw [Put_timer _ k v httl, hw]
    rfl
  refine ⟨Inv_step hI (.put k v), Or.inl ⟨?_, ?_, ?_, ?_⟩⟩
  · exact lt_or_le _ _
  · show (⟨k, v⟩ : Entry) ∈ (Put w.cache k v).1.entries
    obtain ⟨rest, he⟩ := entries_Put_head hI k v
    rw [he]
    exact List.mem_cons_self _ _
  · show _ ∈ w.pending ++ started w.cache w.now (.put k v)
    rw [hst]
    simp
  · intro p hpm hkey
    have hpm2 : p ∈ w.pending ++ started w.cache w.now (.put k v) := hpm
    rcases List.mem_append.mp hpm2 with h1 | h1
    · exact absurd hkey (hfresh p h1)
    · rw [hst, List.mem_singleton] at h1
      rw [h1]

theorem no_ttl_no_pending (evs : List Event) {w : World} (httl : w.cache.ttl = -1)
    (hp : w.pending = []) : (World.run w evs).pending = [] := by
  induction evs generalizing w with
  | nil => exact hp
  | cons ev rest ih =>
    have hstep : World.run w (ev :: rest) = World.run (w.step ev) rest := rfl
    rw [hstep]
    cases ev with
    | call op =>
      have hs : started w.cache w.now op = [] := by
        cases op with
        | put k v =>
          simp only [started]
          rw [Put_timer_none _ k v httl]
          rfl
        | get k => rfl
        | remove k => rfl
        | removeOldest => rfl
      apply ih
      · show (step w.cache op).ttl = -1
        rw [step_ttl, httl]
      · show w.pending ++ started w.cache w.now op = []
        rw [hp, hs]
        rfl
    | wait dt =>
      apply ih
      · show (fireDue (w.now + dt) w.pending w.cache).1.ttl = -1
        rw [hp]
        exact httl
      · show (fireDue (w.now + dt) w.pending w.cache).2 = []
        rw [hp]
        rfl


/-! ## A stale expiration and an overwritten key (C14) -/

/-- C14 as stated fails: on a cache with ttl 10, Put(1, "v1") starts an
expiration for key 1; after Put(1, "v2") has overwritten the key, the firing
of that expiration removes key 1 with its value "v2" instead of leaving the
state unchanged. -/
theorem stale_expiration_removes_overwrite :
    (Put (NewCacheTTL 2 10) 1 "v1").2 = some ⟨10 * second, 1⟩ ∧
    overwritten.entries = [⟨1, "v2"⟩] ∧
    (expire overwritten ⟨10 * second, 1⟩).entries = [] ∧
    (expire overwritten ⟨10 * second, 1⟩).entries ≠ overwritten.entries ∧
    (Get (expire overwritten ⟨10 * second, 1⟩) 1).2 = ("", false) := by
  refine ⟨?_, ?_, ?_, ?_, ?_⟩ <;> decide

/-- C14, amended: on a reachable cache with a ttl, Put(k, v1) starts an
expiration for k, and a later Put(k, v2) leaves k present with value v2.  When
that expiration fires on a reachable state in which k holds v2, it removes k
with the value v2 (the other entries stay, in order) and k is absent
afterwards; the firing leaves the state unchanged only when k is absent. -/
theorem expiration_removes_present_key (c : LRUCache) (k : Nat) (v1 v2 : String)
    (hc : Reachable c) (httl : c.ttl ≠ -1) :
    ∃ t, (Put c k v1).2 = some t ∧ t.key = k ∧
      (⟨k, v2⟩ : Entry) ∈ (Put (Put c k v1).1 k v2).1.entries ∧
      (∀ c2, Reachable c2 → (⟨k, v2⟩ : Entry) ∈ c2.entries →
        (expire c2 t).entries = c2.entries.erase ⟨k, v2⟩ ∧ k ∉ (expire c2 t).keys ∧
        (Get (expire c2 t) k).2 = ("", false)) ∧
      (∀ c2, Reachable c2 → k ∉ c2.keys → expire c2 t = c2) := by
  refine ⟨⟨wrap64 (1000000000 * c.ttl), k⟩, Put_timer c k v1 httl, rfl, ?_, ?_, ?_⟩
  · obtain ⟨rest, he⟩ := entries_Put_head (Inv_Put hc.inv_reached k v1) k v2
    rw [he]
    exact List.mem_cons_self _ _
  · intro c2 hc2 hmem
    have hI := hc2.inv_reached
    have hnone : (Remove c2 k).1.storage k = none := Remove_storage_self hI k
    have habs : k ∉ (Remove c2 k).1.keys := ((Inv_Remove hI k).absent_iff k).mp hnone
    refine ⟨?_, habs, ?_⟩
    · show (Remove c2 k).1.entries = _
      rw [entries_Remove hI, filter_key_eq_erase hI hmem]
    · show (Get (Remove c2 k).1 k).2 = ("", false)
      rw [Get_none _ k hnone]
  · intro c2 hc2 hk
    show (Remove c2 k).1 = c2
    rw [Remove_none c2 k ((hc2.inv_reached.absent_iff k).mpr hk)]

/-- Witness for the amended C14 on the cache with ttl 10. -/
theorem expiration_removes_present_key_witness :
    Reachable (NewCacheTTL 2 10) ∧ (NewCacheTTL 2 10).ttl ≠ -1 ∧
    ∃ t, (Put (NewCacheTTL 2 10) 1 "v1").2 = some t ∧ t.key = 1 ∧
      (⟨1, "v2"⟩ : Entry) ∈ (Put (Put (NewCacheTTL 2 10) 1 "v1").1 1 "v2").1.entries ∧
      (∀ c2, Reachable c2 → (⟨1, "v2"⟩ : Entry) ∈ c2.entries →
        (expire c2 t).entries = c2.entries.erase ⟨1, "v2"⟩ ∧ 1 ∉ (expire c2 t).keys ∧
        (Get (expire c2 t) 1).2 = ("", false)) ∧
      (∀ c2, Reachable c2 → 1 ∉ c2.keys → expire c2 t = c2) :=
  ⟨⟨NewCacheTTL 2 10, [], Or.inr (Or.inl ⟨2, 10, rfl⟩), rfl⟩, by decide,
    expiration_removes_present_key (NewCacheTTL 2 10) 1 "v1" "v2"
      ⟨NewCacheTTL 2 10, [], Or.inr (Or.inl ⟨2, 10, rfl⟩), rfl⟩ (by decide)⟩

/-! ## Expiry after ttl seconds (C15) -/

/-- C15 as stated fails in two ways.  A stale expiration: on a cache with ttl
10, key 1 is put at time 0 and removed at once; it is absent at time 5 s when
Put(1, "v") inserts it, and nothing touches it afterwards, yet when the clock
reaches 10 s, before 5 s + 10 s, the expiration of the first Put fires and
Get(1) returns ("", false).  A ttl too large for a Duration: with ttl
9223372037 the product with time.Second wraps to a negative duration; Put
returns with the key in place, the expiration is due at once, and one second
later, long before ttl seconds, Get(1) returns ("", false). -/
theorem ttl_expiry_too_early :
    staleBefore.now = 5 * second ∧ staleBefore.cache.ttl = 10 ∧
    1 ∉ staleBefore.cache.keys ∧
    (Get staleWorld.cache 1).2 = ("v", true) ∧
    (staleWorld.wait 5000000000).now = 10 * second ∧
    (staleWorld.wait 5000000000).now < staleBefore.now + second * 10 ∧
    (Get (staleWorld.wait 5000000000).cache 1).2 = ("", false) ∧
    (Put (NewCacheTTL 2 9223372037) 1 "v").2 = some ⟨-9223372036709551616, 1⟩ ∧
    (Get (wrapWorld.call (.put 1 "v")).cache 1).2 = ("v", true) ∧
    ((wrapWorld.call (.put 1 "v")).wait 1000000000).now = 1 * second ∧
    ((wrapWorld.call (.put 1 "v")).wait 1000000000).now
      < wrapWorld.now + second * wrapWorld.cache.ttl ∧
    (Get ((wrapWorld.call (.put 1 "v")).wait 1000000000).cache 1).2 = ("", false) := by
  refine ⟨?_, ?_, ?_, ?_, ?_, ?_, ?_, ?_, ?_, ?_, ?_, ?_⟩ <;> decide

/-- C15, amended.  In the timed model a call only starts an expiration, and a
started expiration fires when time passes with the clock at or past its due
time.  Take a reachable cache with ttl = T, T at least 0 and T seconds small
enough for a 64-bit Duration, at a time t at which no expiration for k is
pending.  Right after Put(k, v) at time t, Get(k) returns (v, true).  After
any sequence of later events (time passing, and calls that neither name k nor
evict it): Get(k) returns (v, true) at every time before t + T seconds, and as
long as the expiration of this Put is pending; it returns ("", false) once
that expiration has fired; the expiration has fired at every time from t + T
seconds on when T is at least 1, and, for every T, after any further passage
of time that brings the clock to t + T seconds or later.  A cache built by
NewCache never has a pending expiration. -/
theorem ttl_expiry (w : World) (k : Nat) (v : String) (evs : List Event)
    (hc : Reachable w.cache) (hT : 0 ≤ w.cache.ttl) (hfit : second * w.cache.ttl < 2 ^ 63)
    (hfresh : ∀ p ∈ w.pending, p.key ≠ k)
    (hun : Untouched k (w.call (.put k v)) evs) :
    (Get (w.call (.put k v)).cache k).2 = (v, true) ∧
    ((World.run (w.call (.put k v)) evs).now < w.now + second * w.cache.ttl →
      (Get (World.run (w.call (.put k v)) evs).cache k).2 = (v, true)) ∧
    ((⟨w.now + second * w.cache.ttl, k⟩ : Pending) ∈ (World.run (w.call (.put k v)) evs).pending →
      (Get (World.run (w.call (.put k v)) evs).cache k).2 = (v, true)) ∧
    ((⟨w.now + second * w.cache.ttl, k⟩ : Pending) ∉ (World.run (w.call (.put k v)) evs).pending →
      (Get (World.run (w.call (.put k v)) evs).cache k).2 = ("", false)) ∧
    (1 ≤ w.cache.ttl →
      w.now + second * w.cache.ttl ≤ (World.run (w.call (.put k v)) evs).now →
      (Get (World.run (w.call (.put k v)) evs).cache k).2 = ("", false)) ∧
    (∀ dt : Nat,
      w.now + second * w.cache.ttl ≤ (World.run (w.call (.put k v)) evs).now + dt →
      (Get ((World.run (w.call (.put k v)) evs).wait dt).cache k).2 = ("", false)) ∧
    (∀ capacity evs2, (World.run (World.start (NewCache capacity)) evs2).pending = []) := by
  have h0 := Tracks_Put k v hc.inv_reached hT hfit hfresh
  have hrun := Tracks_run evs h0 hun
  have h := Tracks_Get hrun
  refine ⟨?_, h.1, h.2.1, h.2.2.1, ?_, ?_, fun capacity evs2 => no_ttl_no_pending evs2 rfl rfl⟩
  · obtain ⟨rest, he⟩ := entries_Put_head hc.inv_reached k v
    have hmem : (⟨k, v⟩ : Entry) ∈ (Put w.cache k v).1.entries := by
      rw [he]
      exact List.mem_cons_self _ _
    obtain ⟨a, hs, hv⟩ := (Inv_Put hc.inv_reached k v).lookup_of_mem hmem
    show (Get (Put w.cache k v).1 k).2 = (v, true)
    rw [Get_some _ k a hs, hv]
  · intro h1 h2
    apply h.2.2.2 _ h2
    unfold second
    omega
  · intro dt hdue
    exact wait_expires hrun dt hdue

/-- Witness for the amended C15: ttl 10, key 1 put at time 0, then 4 s pass
and key 2 is put; key 1 is still there. -/
theorem ttl_expiry_witness :
    Reachable ttlWorld.cache ∧ 0 ≤ ttlWorld.cache.ttl ∧ second * ttlWorld.cache.ttl < 2 ^ 63 ∧
    (∀ p ∈ ttlWorld.pending, p.key ≠ 1) ∧
    Untouched 1 (ttlWorld.call (.put 1 "v")) [.wait 4000000000, .call (.put 2 "b")] ∧
    (Get (World.run (ttlWorld.call (.put 1 "v"))
      [.wait 4000000000, .call (.put 2 "b")]).cache 1).2 = ("v", true) :=
  have hc : Reachable ttlWorld.cache := ⟨NewCacheTTL 2 10, [], Or.inr (Or.inl ⟨2, 10, rfl⟩), rfl⟩
  have hun : Untouched 1 (ttlWorld.call (.put 1 "v"))
      [.wait 4000000000, .call (.put 2 "b")] := by
    refine ⟨⟨by decide, ?_⟩, trivial⟩
    show ¬ (_ ∧ _ ∧ _)
    decide
  ⟨hc, by decide, by decide, by decide, hun,
    (ttl_expiry ttlWorld 1 "v" [.wait 4000000000, .call (.put 2 "b")] hc (by decide)
      (by decide) (by decide) hun).2.1 (by decide)⟩

end lru_cache
